import Mathlib

/-!
Verification of the IPTV playlist selection and normalization scripts
(iptv-test.py and process_iptv.py).  The two scripts share their entire
processing core (speed measurement, name cleaning, M3U parsing, dedup,
sorting); the shared core is embedded once below.  Strings are modelled as
`List Char` (Python strings are sequences of code points); Python's float
arithmetic in the speed computation is modelled exactly over `ℚ`.

Modelling notes, applying throughout:
* `Char.toUpper`/`Char.toLower` only act on ASCII letters, matching Python's
  `str.upper`/`str.lower` on all characters appearing in this program's
  data (ASCII letters, digits, punctuation and CJK characters, which Python
  leaves unchanged as well).
* Python's regex class `\d` is modelled as the ASCII digits (`Char.isDigit`);
  non-ASCII decimal digits are outside the modelled input space.
* Python's `str.strip()` and the regex class `\s` are modelled by one
  whitespace predicate `isPySpace` covering the ASCII whitespace characters
  and the common Unicode whitespace code points.
-/

/-- Coerce a string literal to the `List Char` representation used throughout. -/
def chars (s : String) : List Char := s.data

/-- Whitespace predicate modelling Python's `str.strip()` character set and the
regex class `\s` (ASCII whitespace plus the common Unicode space code points). -/
def isPySpace (c : Char) : Bool :=
  (9 ≤ c.toNat && c.toNat ≤ 13) || c.toNat = 32 ||
  (28 ≤ c.toNat && c.toNat ≤ 31) || c.toNat = 133 || c.toNat = 160 ||
  c.toNat = 0x1680 || (0x2000 ≤ c.toNat && c.toNat ≤ 0x200a) ||
  c.toNat = 0x2028 || c.toNat = 0x2029 || c.toNat = 0x202f ||
  c.toNat = 0x205f || c.toNat = 0x3000

/-- Python `s.strip()`: drop the `isPySpace` characters from both ends. -/
def pyStrip (s : List Char) : List Char :=
  ((s.dropWhile isPySpace).reverse.dropWhile isPySpace).reverse

/-- Python `s.upper()` (ASCII model, see the header note). -/
def upperList (s : List Char) : List Char := s.map Char.toUpper

/-- Fuel-driven worker for `pyReplace`; the fuel is the length of the scanned
string, which bounds the number of scanning steps. -/
def pyReplaceFuel (pat rep : List Char) : Nat → List Char → List Char
  | 0, s => s
  | _ + 1, [] => []
  | fuel + 1, c :: rest =>
    if pat ≠ [] ∧ pat.isPrefixOf (c :: rest) then
      rep ++ pyReplaceFuel pat rep fuel ((c :: rest).drop pat.length)
    else
      c :: pyReplaceFuel pat rep fuel rest

/-- Python `s.replace(pat, rep)`: replace the non-overlapping occurrences of
`pat`, scanning left to right.  Every call site in the source uses a
non-empty `pat`; an empty `pat` is returned unchanged here (Python would
instead interleave `rep`, a behaviour the program never exercises). -/
def pyReplace (pat rep s : List Char) : List Char :=
  pyReplaceFuel pat rep s.length s

/-- Python `s.split(',')[-1]`: the characters after the last comma (the whole
string when no comma is present). -/
def afterLastComma (s : List Char) : List Char :=
  (s.reverse.takeWhile (fun c => c ≠ ',')).reverse

/-- Python `s.split('\n')`, which always returns at least one piece. -/
def splitNl : List Char → List (List Char)
  | [] => [[]]
  | c :: rest =>
    match splitNl rest with
    | [] => [[]]
    | h :: t => if c = '\n' then [] :: h :: t else (c :: h) :: t

/-- Strict lexicographic comparison of two character lists by code point,
modelling Python's string `<`. -/
def lexLt : List Char → List Char → Bool
  | [], [] => false
  | [], _ :: _ => true
  | _ :: _, [] => false
  | a :: as, b :: bs => a.toNat < b.toNat || (a = b && lexLt as bs)

/-- Model of `re.search('pat"([^"]*)"', line)` for the attribute patterns
`tvg-id="..."`, `tvg-logo="..."` and `group-title="..."`: scan left to right
for the literal `pat` (which ends with the opening quote), then capture the
maximal run of non-quote characters, provided it is closed by a quote;
otherwise resume scanning one position later, as the regex engine does. -/
def searchCapture (pat : List Char) : List Char → Option (List Char)
  | [] => none
  | c :: rest =>
    if pat.isPrefixOf (c :: rest) then
      let afterPat := (c :: rest).drop pat.length
      let cap := afterPat.takeWhile (fun d => d ≠ '"')
      if (afterPat.drop cap.length).headI = '"' ∧ afterPat.drop cap.length ≠ [] then
        some cap
      else
        searchCapture pat rest
    else
      searchCapture pat rest

/-- Digit run to the number it denotes, modelling Python's `int` on a `\d+`
match (which cannot raise `ValueError`; the dead except branch of
`extract_cctv_number` is therefore not represented). -/
def digitsToNat (ds : List Char) : Nat :=
  ds.foldl (fun a c => a * 10 + (c.toNat - 48)) 0

/-- Transport-stream validity check of `test_ip_download_speed`
(both scripts, identical): the inspected buffer is `f.read(1024)`, and the
check is `len(data) >= 188 and data[0] == 0x47`. -/
def is_valid_stream (data : List Nat) : Bool :=
  decide (188 ≤ data.length) && data.headI == 0x47

/-- Measurement core of `test_ip_download_speed` (iptv-test.py lines 155-191,
process_iptv.py lines 125-161), modelling the state after the timed curl
download: `fileExists` tells whether the temp file exists, `fileBytes` its
contents, `elapsed` the measured wall-clock seconds.  The returned pair is
`(success, speed_kb)` with `speed_kb = file_size / elapsed / 1024`, halved
when the transport-stream inspection fails. -/
def test_ip_download_speed (fileExists : Bool) (fileBytes : List Nat)
    (elapsed : ℚ) : Bool × ℚ :=
  if fileExists then
    if 0 < fileBytes.length then
      let speed_kb : ℚ := (fileBytes.length : ℚ) / elapsed / 1024
      if is_valid_stream (fileBytes.take 1024) then
        (true, speed_kb)
      else
        (true, speed_kb * (1 / 2))
    else
      (false, 0)
  else
    (false, 0)

/-- The high-definition marker stripped throughout the normalizer. -/
def gaoqing : List Char := chars "高清"

/-- The numbered-channel family token. -/
def cctvTok : List Char := chars "CCTV"

/-- The letter-swapped misspelling of the family token. -/
def ccvtTok : List Char := chars "CCVT"

/-- Suffixes preserved by `clean_cctv_name` (source order matters: the loop
keeps the first match). -/
def preserve_suffixes : List (List Char) :=
  [chars "新闻", chars "体育", chars "综艺", chars "电影", chars "少儿",
   chars "音乐", chars "戏曲", chars "农业", chars "科教"]

/-- Generic quality suffixes of `clean_cctv_name`; the cleaned-up suffix these
produce is computed but never used by the source, and the same dead
computation is kept below. -/
def remove_suffixes : List (List Char) :=
  [chars "-综合", chars "综合", chars "HD", chars "UHD", chars "FHD",
   chars "超清", chars "标清", chars " "]

/-- Python's substring containment `pat in s` as a Bool scan. -/
def listContains (pat : List Char) : List Char → Bool
  | [] => pat.isEmpty
  | c :: rest => pat.isPrefixOf (c :: rest) || listContains pat rest

/-- Case-insensitive match of the literal `CCTV` at the head of the string
(the `(CCTV)` group of the pattern, under `re.IGNORECASE`); returns the
remaining characters on success. -/
def ciCCTVHead : List Char → Option (List Char)
  | c1 :: c2 :: c3 :: c4 :: rest =>
    if c1.toLower = 'c' ∧ c2.toLower = 'c' ∧ c3.toLower = 't' ∧ c4.toLower = 'v' then
      some rest
    else
      none
  | _ => none

/-- Model of `$` after the `(.*)` group: `.` does not cross a newline, and `$`
matches at the end of the string or just before one trailing newline.  Given
the remainder after the digits, return the suffix group when the pattern can
complete, `none` otherwise. -/
def dollarSuffix (r : List Char) : Option (List Char) :=
  if '\n' ∈ r then
    if r.getLast? = some '\n' ∧ '\n' ∉ r.dropLast then some r.dropLast else none
  else
    some r

/-- The `(\d+)` group: succeeds exactly when the first character is a digit,
capturing the maximal digit run and the remainder. -/
def numSplit (l : List Char) : Option (List Char × List Char) :=
  match l with
  | [] => none
  | d :: _ =>
    if d.isDigit then
      some (l.takeWhile Char.isDigit, l.drop (l.takeWhile Char.isDigit).length)
    else none

/-- The `[-\s]?(\d+)` part: the optional separator class is greedy; when it
consumes a character but no digit follows, the engine backtracks to the empty
separator, where the separator character itself fails `\d`, so the match
fails — hence a separator must be followed directly by a digit. -/
def sepSplit : List Char → Option (List Char × List Char)
  | [] => none
  | c :: rest2 =>
    if c = '-' ∨ isPySpace c then numSplit rest2 else numSplit (c :: rest2)

/-- Model of `re.match(r'^(CCTV)[-\s]?(\d+)(.*)$', s, re.IGNORECASE)`: returns
the digits group and the suffix group. -/
def matchCCTV (s : List Char) : Option (List Char × List Char) :=
  (ciCCTVHead s).bind (fun rest =>
    (sepSplit rest).bind (fun p =>
      (dollarSuffix p.2).map (fun suf => (p.1, suf))))

/-- The loop over `preserve_suffixes`: first suffix `ps` with
`suffix.endswith(ps) or f"-{ps}" in suffix`. -/
def findPreserve (suffix : List Char) : Option (List Char) :=
  preserve_suffixes.find?
    (fun ps => ps.isSuffixOf suffix || listContains ('-' :: ps) suffix)

/-- Model of `re.sub(r'[<>:"/\\|?*]', '', s)`: drop the filesystem-unsafe
characters. -/
def stripUnsafe (s : List Char) : List Char :=
  s.filter (fun c =>
    ¬ (c = '<' ∨ c = '>' ∨ c = ':' ∨ c = '"' ∨ c = '/' ∨ c = '\\' ∨
       c = '|' ∨ c = '?' ∨ c = '*'))

/-- Embedding of `clean_cctv_name(name, name_type)` (iptv-test.py lines
349-386, process_iptv.py lines 913-950). -/
def clean_cctv_name (name : List Char) (name_type : String) : List Char :=
  if name = [] then name
  else
    let original_name := name
    let cleaned := pyReplace gaoqing [] name
    let cleaned :=
      if listContains cctvTok (upperList cleaned) then
        match matchCCTV cleaned with
        | some (num, suffix0) =>
          let suffix := pyStrip suffix0
          if suffix.getLast? = some '+' ∨ suffix.getLast? = some '＋' then
            cctvTok ++ num ++ ['+']
          else
            match findPreserve suffix with
            | some ps => cctvTok ++ num ++ '-' :: ps
            | none =>
              -- temp_suffix is computed but never used by the source.
              let _temp_suffix :=
                remove_suffixes.foldl (fun t rs => pyReplace rs [] t) suffix
              cctvTok ++ num
        | none => cleaned
      else cleaned
    if name_type = "logo" ∧ cleaned ≠ original_name then stripUnsafe cleaned
    else cleaned

/-- Embedding of `clean_tvg_id(tvg_id)` (iptv-test.py lines 388-398,
process_iptv.py lines 952-962): correct the `CCVT` transposition (which
uppercases the whole identifier) and clean as a `tvg_id`. -/
def clean_tvg_id (tvg_id : List Char) : List Char :=
  let corrected_id :=
    if listContains ccvtTok (upperList tvg_id) then
      pyReplace ccvtTok cctvTok (upperList tvg_id)
    else tvg_id
  clean_cctv_name corrected_id "tvg_id"

/-- The fixed logo base URL of `clean_logo_url`. -/
def logoBase : List Char := chars "https://gcore.jsdelivr.net/gh/taksssss/tv/icon/"

/-- Embedding of `clean_logo_url(logo_url, tvg_id)` (iptv-test.py lines
400-409, process_iptv.py lines 964-973). -/
def clean_logo_url (logo_url : List Char) (tvg_id : List Char) : List Char :=
  if tvg_id = [] then logo_url
  else
    let clean_id := clean_tvg_id tvg_id
    logoBase ++ clean_id ++ chars ".png"

/-- One anchored attempt of `re.search(r'CCTV[-\s]?(\d+)', s)` at the head of
`s` (case-sensitive: this pattern carries no IGNORECASE flag). -/
def cctvNumHere (s : List Char) : Option (List Char) :=
  match s with
  | 'C' :: 'C' :: 'T' :: 'V' :: rest =>
    match rest with
    | [] => none
    | c :: rest2 =>
      if c = '-' ∨ isPySpace c then
        match rest2 with
        | [] => none
        | d :: _ => if d.isDigit then some (rest2.takeWhile Char.isDigit) else none
      else
        if c.isDigit then some ((c :: rest2).takeWhile Char.isDigit) else none
  | _ => none

/-- Model of `re.search(r'CCTV[-\s]?(\d+)', s)`: try the anchored match at
every position, left to right. -/
def searchCCTVNum : List Char → Option (List Char)
  | [] => none
  | c :: rest =>
    match cctvNumHere (c :: rest) with
    | some num => some num
    | none => searchCCTVNum rest

/-- Embedding of `extract_cctv_number(tvg_id)` (iptv-test.py lines 411-423,
process_iptv.py lines 975-987). -/
def extract_cctv_number (tvg_id : List Char) : Nat :=
  if ¬ cctvTok.isPrefixOf tvg_id then 9999
  else
    match searchCCTVNum tvg_id with
    | some num => digitsToNat num
    | none => 0

/-- The channel entry assembled by `process_m3u_content` for one
metadata/URL pair, with the cleaned fields the source interpolates into the
rebuilt `#EXTINF` line. -/
structure ParsedEntry where
  cleanId : List Char
  cleanName : List Char
  cleanLogo : List Char
  cleanGroup : List Char
  streamUrl : List Char
deriving DecidableEq

/-- Literal scanned for by the `tvg-id="([^"]*)"` search. -/
def attrId : List Char := chars "tvg-id=\""

/-- Literal scanned for by the `tvg-logo="([^"]*)"` search. -/
def attrLogo : List Char := chars "tvg-logo=\""

/-- Literal scanned for by the `group-title="([^"]*)"` search. -/
def attrGroup : List Char := chars "group-title=\""

/-- Directive recognizing a metadata line (`line.startswith('#EXTINF:')`). -/
def extinfMark : List Char := chars "#EXTINF:"

/-- Directive recognizing the playlist header (`startswith('#EXTM3U')`). -/
def extm3uMark : List Char := chars "#EXTM3U"

/-- The comment marker (`line.startswith('#')`). -/
def hashMark : List Char := ['#']

/-- The display-name cleaning block of `process_m3u_content` (iptv-test.py
lines 461-468): the `CCVT` typo fix (which uppercases the whole name) followed
by `clean_cctv_name(..., "channel_name")`; an absent name stays empty. -/
def processName (channel_name : List Char) : List Char :=
  if channel_name ≠ [] then
    if listContains ccvtTok (upperList channel_name) then
      clean_cctv_name (pyReplace ccvtTok cctvTok (upperList channel_name)) "channel_name"
    else clean_cctv_name channel_name "channel_name"
  else []

/-- Assembly of one entry from a metadata line and its (already stripped)
stream URL (iptv-test.py lines 443-485). -/
def buildEntry (extinf_line stream_url : List Char) : ParsedEntry :=
  let tvg_id := (searchCapture attrId extinf_line).getD []
  let tvg_logo := (searchCapture attrLogo extinf_line).getD []
  let group_title := (searchCapture attrGroup extinf_line).getD []
  let channel_name :=
    if ',' ∈ extinf_line then pyStrip (afterLastComma extinf_line) else []
  let clean_id := clean_tvg_id tvg_id
  let clean_name := processName channel_name
  let clean_logo := clean_logo_url tvg_logo clean_id
  let clean_group := if group_title ≠ [] then pyReplace gaoqing [] group_title else []
  ⟨clean_id, clean_name, clean_logo, clean_group, stream_url⟩

/-- The index-driven scanning loop of `process_m3u_content` (iptv-test.py
lines 436-486): at a metadata line the index advances past the following line
whether or not that line completed an entry; at any other line it advances by
one.  The fuel argument only bounds the number of iterations; `parse_entries`
supplies enough of it. -/
def parseLoop (lines : List (List Char)) : Nat → Nat → List ParsedEntry
  | 0, _ => []
  | fuel + 1, i =>
    if h : i < lines.length then
      if extinfMark.isPrefixOf lines[i] then
        if h2 : i + 1 < lines.length then
          if hashMark.isPrefixOf lines[i + 1] then parseLoop lines fuel (i + 2)
          else buildEntry lines[i] (pyStrip lines[i + 1]) :: parseLoop lines fuel (i + 2)
        else parseLoop lines fuel (i + 2)
      else parseLoop lines fuel (i + 1)
    else []

/-- Entry scan of `process_m3u_content` over the lines after the header. -/
def parse_entries (lines : List (List Char)) : List ParsedEntry :=
  parseLoop lines (lines.length + 1) 0

/-- Modelled from the spec: the parser as the spec's §4.3 describes it per
line pair, written as a structural recursion to be compared with the
index-driven `parse_entries` loop of the source. -/
def parseSpec : List (List Char) → List ParsedEntry
  | [] => []
  | [_] => []
  | m :: t :: rest =>
    if extinfMark.isPrefixOf m then
      if hashMark.isPrefixOf t then parseSpec rest
      else buildEntry m (pyStrip t) :: parseSpec rest
    else parseSpec (t :: rest)

/-- Python dict insertion keyed on the cleaned identity: overwrite in place on
collision, append otherwise (the deduplication loop of `process_m3u_content`,
iptv-test.py lines 489-494). -/
def dictInsert (d : List ParsedEntry) (e : ParsedEntry) : List ParsedEntry :=
  match d with
  | [] => [e]
  | x :: rest => if x.cleanId = e.cleanId then e :: rest else x :: dictInsert rest e

/-- The per-identity sort key of `process_m3u_content` (iptv-test.py lines
500-525, process_iptv.py lines 1064-1089).  Python returns tuples of
different lengths per branch, but tuples are only ever compared within one
category weight, so padding the two-element tuples with a constant 0 middle
component induces the identical order. -/
def sort_key (tvg_id : List Char) : Nat × Nat × List Char :=
  if tvg_id = cctvTok then (2, 0, tvg_id)
  else if cctvTok.isPrefixOf tvg_id then
    (0, extract_cctv_number tvg_id, tvg_id)
  else if (chars "卫视").isSuffixOf tvg_id ∨ (chars "卫視").isSuffixOf tvg_id then
    (1, 0, tvg_id)
  else (3, 0, tvg_id)

/-- Non-strict lexicographic order on sort keys (Python tuple `<=`). -/
def keyLE (a b : Nat × Nat × List Char) : Bool :=
  decide (a.1 < b.1) ||
    (decide (a.1 = b.1) &&
      (decide (a.2.1 < b.2.1) ||
        (decide (a.2.1 = b.2.1) && (lexLt a.2.2 b.2.2 || decide (a.2.2 = b.2.2)))))

/-- Strict lexicographic order on sort keys (Python tuple `<`). -/
def keyLT (a b : Nat × Nat × List Char) : Bool :=
  decide (a.1 < b.1) ||
    (decide (a.1 = b.1) &&
      (decide (a.2.1 < b.2.1) ||
        (decide (a.2.1 = b.2.1) && lexLt a.2.2 b.2.2)))

/-- Entry comparison used for sorting: keys of the cleaned identities. -/
def entryLE (a b : ParsedEntry) : Bool := keyLE (sort_key a.cleanId) (sort_key b.cleanId)

/-- Stable insertion of `x` after every earlier element `y` with `le y x`. -/
def insertSorted {α : Type} (le : α → α → Bool) (x : α) : List α → List α
  | [] => [x]
  | y :: ys => if le y x then y :: insertSorted le x ys else x :: y :: ys

/-- Stable sort (insertion sort processing the list left to right), modelling
Python's stable `sorted`; with the total order `entryLE`, whose final
component is the identity itself, the result coincides with any stable sort. -/
def pySort {α : Type} (le : α → α → Bool) (l : List α) : List α :=
  l.foldl (fun acc x => insertSorted le x acc) []

/-- Lines of the playlist text (`content.strip().split('\n')`). -/
def m3uLines (content : List Char) : List (List Char) := splitNl (pyStrip content)

/-- The captured header line (empty when the first line is not a
`#EXTM3U` directive). -/
def m3uHeader (content : List Char) : List Char :=
  match m3uLines content with
  | l :: _ => if extm3uMark.isPrefixOf l then l else []
  | [] => []

/-- The lines scanned for entries (the header line excluded when captured). -/
def m3uBody (content : List Char) : List (List Char) :=
  match m3uLines content with
  | l :: rest => if extm3uMark.isPrefixOf l then rest else l :: rest
  | [] => []

/-- All entries of the playlist in parse order, already normalized. -/
def m3uEntries (content : List Char) : List ParsedEntry :=
  parse_entries (m3uBody content)

/-- The deduplicated entries (`unique_dict`), in first-insertion order with
last-written values. -/
def m3uUnique (content : List Char) : List ParsedEntry :=
  (m3uEntries content).foldl dictInsert []

/-- The deduplicated entries sorted by `sort_key` (`sorted_items`). -/
def m3uSorted (content : List Char) : List ParsedEntry :=
  pySort entryLE (m3uUnique content)

/-- The rebuilt metadata line of one entry (the `new_line` f-string of
iptv-test.py lines 478-483, before the newline). -/
def metaLine (e : ParsedEntry) : List Char :=
  chars "#EXTINF:-1 tvg-id=\"" ++ e.cleanId ++ ['"'] ++
  (if e.cleanLogo ≠ [] then chars " tvg-logo=\"" ++ e.cleanLogo ++ ['"'] else []) ++
  (if e.cleanGroup ≠ [] then chars " group-title=\"" ++ e.cleanGroup ++ ['"'] else []) ++
  [',' ] ++ e.cleanName

/-- The rebuilt two-line block of one entry (metadata line, newline, stream
URL). -/
def entryLine (e : ParsedEntry) : List Char :=
  metaLine e ++ '\n' :: e.streamUrl

/-- Embedding of `process_m3u_content(content)` (iptv-test.py lines 425-549,
process_iptv.py lines 989-1113): parse, clean, dedup, sort and re-emit. -/
def process_m3u_content (content : List Char) : List Char :=
  let first_line := m3uHeader content
  let header := if first_line ≠ [] then first_line else chars "#EXTM3U"
  List.intercalate ['\n'] (header :: (m3uSorted content).map entryLine)

/-- The playlist text the program would emit for a given header and entry
list (`'\n'.join` of the header and the rebuilt two-line blocks), used to
state the round-trip property. -/
def emit_m3u (header : List Char) (entries : List ParsedEntry) : List Char :=
  List.intercalate ['\n'] (header :: entries.map entryLine)

/-- Collaborator outcomes consumed by the `main` of iptv-test.py: the M3U
urls found on GitHub, the successful speed-test results (already sorted by
speed), and the fetched playlist text of the winner (`none` models a raised
fetch error). -/
structure IptvTestEnv where
  m3uUrls : List (List Char)
  successfulResults : List (List Char)
  fetched : Option (List Char)

/-- Exit code and written output playlist of the `main` of iptv-test.py
(lines 552-632): exit 1 when no urls, exit 1 when no successful speed test,
exit 1 on a fetch exception, else write the processed playlist and finish
with exit code 0. -/
def iptv_test_main (env : IptvTestEnv) : Nat × Option (List Char) :=
  if env.m3uUrls = [] then (1, none)
  else if env.successfulResults = [] then (1, none)
  else
    match env.fetched with
    | none => (1, none)
    | some c => (0, some (process_m3u_content c))

/-- Collaborator outcomes consumed by the `main` of process_iptv.py: the
available IPs scraped from the site, those for which an M3U link was
obtained, the IPs whose speed test succeeded (already sorted by speed), and
the fetched playlist text of the winner (`none` models a raised fetch
error). -/
structure ProcessIptvEnv where
  availableIPs : List (List Char)
  ipsWithM3u : List (List Char)
  testedIPs : List (List Char)
  fetched : Option (List Char)

/-- Exit code and written output playlist of the `main` of process_iptv.py
(lines 1116-1214): exit 1 when no available IPs, exit 0 (sic) with no output
when no M3U links were obtained, exit 0 (sic, "partial success") with no
output when every speed test failed, exit 1 on a fetch exception, else write
the processed playlist and finish with exit code 0. -/
def process_iptv_main (env : ProcessIptvEnv) : Nat × Option (List Char) :=
  if env.availableIPs = [] then (1, none)
  else if env.ipsWithM3u = [] then (0, none)
  else if env.testedIPs = [] then (0, none)
  else
    match env.fetched with
    | none => (1, none)
    | some c => (0, some (process_m3u_content c))

/-! ### Stream prober: probe penalty (C1) -/

/-- C1: for every probe whose downloaded file is non-empty,
`test_ip_download_speed` reports success, and the reported speed equals the
throughput `file_size / elapsed` expressed in the program's unit of KB/s
(that is, divided by 1024) when the 188-byte transport-stream inspection of
the first 1024 bytes succeeds, and exactly half that value when it does
not. -/
theorem C1_probe_penalty (fileBytes : List Nat) (elapsed : ℚ)
    (hne : fileBytes ≠ []) :
    (test_ip_download_speed true fileBytes elapsed).1 = true ∧
    (is_valid_stream (fileBytes.take 1024) = true →
      (test_ip_download_speed true fileBytes elapsed).2 =
        ((fileBytes.length : ℚ) / elapsed) / 1024) ∧
    (is_valid_stream (fileBytes.take 1024) = false →
      (test_ip_download_speed true fileBytes elapsed).2 =
        (1 / 2) * (((fileBytes.length : ℚ) / elapsed) / 1024)) := by
  have hpos : 0 < fileBytes.length := List.length_pos.mpr hne
  unfold test_ip_download_speed
  simp only [if_pos hpos, if_true]
  rcases h : is_valid_stream (fileBytes.take 1024) with _ | _ <;>
    simp [h, mul_comm]

/-- Witness for C1 at a concrete 188-byte transport-stream buffer downloaded
in 2 seconds. -/
theorem C1_probe_penalty_witness :
    ((0x47 :: List.replicate 187 0 : List Nat) ≠ [] ∧
     (test_ip_download_speed true (0x47 :: List.replicate 187 0) 2).1 = true ∧
     (is_valid_stream ((0x47 :: List.replicate 187 0 : List Nat).take 1024) = true →
       (test_ip_download_speed true (0x47 :: List.replicate 187 0) 2).2 =
         (((0x47 :: List.replicate 187 0 : List Nat).length : ℚ) / 2) / 1024) ∧
     (is_valid_stream ((0x47 :: List.replicate 187 0 : List Nat).take 1024) = false →
       (test_ip_download_speed true (0x47 :: List.replicate 187 0) 2).2 =
         (1 / 2) * ((((0x47 :: List.replicate 187 0 : List Nat).length : ℚ) / 2) / 1024))) :=
  ⟨by decide, C1_probe_penalty (0x47 :: List.replicate 187 0) 2 (by decide)⟩

/-! ### Logo reconstruction (C8, C10) -/

/-- C10: with an empty identity, `clean_logo_url` returns the original logo
URL unchanged; reconstruction only happens for a non-empty identity. -/
theorem C10_empty_id_logo (logo_url : List Char) :
    clean_logo_url logo_url [] = logo_url := rfl

/-- C8 counterexample: for the non-empty identity `A/B` the emitted logo
reference keeps the filesystem-unsafe character `/` — the identity-rule
cleaning applied by `clean_logo_url` never reaches the `name_type == "logo"`
branch that strips unsafe characters, so the claim's predicted reference
(built from the stripped identity `AB`) differs from the code's. -/
theorem C8_logo_counterexample :
    clean_logo_url (chars "http://old/logo.png") (chars "A/B") =
      logoBase ++ chars "A/B.png" ∧
    stripUnsafe (clean_tvg_id (chars "A/B")) = chars "AB" ∧
    logoBase ++ chars "A/B.png" ≠ logoBase ++ stripUnsafe (clean_tvg_id (chars "A/B")) ++ chars ".png" := by
  decide

/-- C8 amended: for every entry with a non-empty identity the emitted logo
reference equals the fixed base URL followed by the identity-rule cleaning
`clean_tvg_id` of the identity and `.png`; no filesystem-unsafe stripping is
applied (that stripping belongs only to the never-invoked `"logo"` name
type), and any previously present logo reference is overridden (the result
does not depend on it). -/
theorem C8_logo_amended (logo_url logo_url' tvg_id : List Char)
    (h : tvg_id ≠ []) :
    clean_logo_url logo_url tvg_id = logoBase ++ clean_tvg_id tvg_id ++ chars ".png" ∧
    clean_logo_url logo_url' tvg_id = clean_logo_url logo_url tvg_id := by
  simp [clean_logo_url, h]

/-- Witness for C8 amended at the identity `CCTV1`. -/
theorem C8_logo_amended_witness :
    chars "CCTV1" ≠ [] ∧
    clean_logo_url (chars "http://old") (chars "CCTV1") =
      logoBase ++ clean_tvg_id (chars "CCTV1") ++ chars ".png" ∧
    clean_logo_url (chars "http://other") (chars "CCTV1") =
      clean_logo_url (chars "http://old") (chars "CCTV1") :=
  ⟨by decide, C8_logo_amended (chars "http://old") (chars "http://other") (chars "CCTV1") (by decide)⟩

/-! ### Sort ordinal of a number-less family identity (C4) -/

/-- C4 counterexample: the identity `CCTVA` carries the family prefix and has
no parsable number, yet `extract_cctv_number` assigns it the ordinal 0 (not
a large sentinel), so within category rank 0 it sorts strictly before the
numbered identity `CCTV1` instead of after it. -/
theorem C4_sentinel_counterexample :
    cctvTok.isPrefixOf (chars "CCTVA") = true ∧
    searchCCTVNum (chars "CCTVA") = none ∧
    extract_cctv_number (chars "CCTVA") = 0 ∧
    keyLT (sort_key (chars "CCTVA")) (sort_key (chars "CCTV1")) = true := by
  decide

/-- C4 amended: within category rank 0, an identity that carries the family
prefix but no parsable number is assigned the ordinal 0 and therefore sorts
strictly before every rank-0 identity whose parsed channel number is at
least 1. -/
theorem C4_missing_number_amended (a b : List Char)
    (ha1 : cctvTok.isPrefixOf a = true) (ha2 : a ≠ cctvTok)
    (ha3 : searchCCTVNum a = none)
    (hb1 : cctvTok.isPrefixOf b = true) (hb2 : b ≠ cctvTok)
    (ds : List Char) (hb3 : searchCCTVNum b = some ds)
    (hb4 : 1 ≤ digitsToNat ds) :
    extract_cctv_number a = 0 ∧ keyLT (sort_key a) (sort_key b) = true := by
  have hea : extract_cctv_number a = 0 := by
    unfold extract_cctv_number
    simp [ha1, ha3]
  have heb : extract_cctv_number b = digitsToNat ds := by
    unfold extract_cctv_number
    simp [hb1, hb3]
  refine ⟨hea, ?_⟩
  unfold sort_key
  simp only [if_neg ha2, if_neg hb2, if_pos ha1, if_pos hb1, hea, heb]
  unfold keyLT
  simp
  omega

/-- Witness for C4 amended: `CCTVA` against `CCTV1`. -/
theorem C4_missing_number_amended_witness :
    cctvTok.isPrefixOf (chars "CCTVA") = true ∧
    searchCCTVNum (chars "CCTV1") = some ['1'] ∧
    extract_cctv_number (chars "CCTVA") = 0 ∧
    keyLT (sort_key (chars "CCTVA")) (sort_key (chars "CCTV1")) = true :=
  ⟨by decide, by decide,
   C4_missing_number_amended (chars "CCTVA") (chars "CCTV1")
     (by decide) (by decide) (by decide) (by decide) (by decide)
     ['1'] (by decide) (by decide)⟩

/-! ### Process exit contract (C2) -/

/-- C2 counterexample: in process_iptv.py, when candidates exist and M3U
links were generated but every candidate's speed test fails, the process
exits with code 0 while writing no output playlist — the claim demands a
non-zero exit in exactly this situation. -/
theorem C2_exit_code_counterexample :
    (process_iptv_main ⟨[chars "ip"], [chars "url"], [], none⟩).1 = 0 ∧
    (process_iptv_main ⟨[chars "ip"], [chars "url"], [], none⟩).2 = none := by
  decide

/-- C2 amended: iptv-test.py exits with code zero exactly when it writes an
output playlist (regardless of the number of channels in it); process_iptv.py
exits with code zero when it writes an output playlist, but also — writing no
output playlist — when candidates exist and either no M3U link could be
generated or every candidate's speed test failed ("partial success"); its
remaining exits (no candidates, fetch failure) are non-zero with no output. -/
theorem C2_exit_contract_amended :
    (∀ env : IptvTestEnv,
      (iptv_test_main env).1 = 0 ↔ (iptv_test_main env).2 ≠ none) ∧
    (∀ env : ProcessIptvEnv,
      (process_iptv_main env).1 = 0 ↔
        ((process_iptv_main env).2 ≠ none ∨
         (env.availableIPs ≠ [] ∧ (env.ipsWithM3u = [] ∨ env.testedIPs = [])))) := by
  constructor
  · intro env
    unfold iptv_test_main
    rcases env with ⟨urls, res, fetched⟩
    rcases urls with _ | ⟨u, urls⟩ <;> rcases res with _ | ⟨r, res⟩ <;>
      rcases fetched with _ | c <;> simp
  · intro env
    unfold process_iptv_main
    rcases env with ⟨ips, m3u, tested, fetched⟩
    rcases ips with _ | ⟨i, ips⟩ <;> rcases m3u with _ | ⟨m, m3u⟩ <;>
      rcases tested with _ | ⟨t, tested⟩ <;> rcases fetched with _ | c <;> simp

/-! ### Parser recovery behaviour (C7) -/

/-- Skipping a non-metadata line leaves the reference parser unchanged. -/
theorem parseSpec_cons_of_not_extinf (m : List Char) (rest : List (List Char))
    (h : extinfMark.isPrefixOf m = false) :
    parseSpec (m :: rest) = parseSpec rest := by
  cases rest <;> simp [parseSpec, h]

/-- The scanning loop with sufficient fuel computes the reference recursion on
the remaining lines. -/
theorem parseLoop_eq_spec (lines : List (List Char)) :
    ∀ (fuel i : Nat), lines.length ≤ i + fuel →
      parseLoop lines fuel i = parseSpec (lines.drop i) := by
  intro fuel
  induction fuel with
  | zero =>
    intro i hle
    have hdrop : lines.drop i = [] := List.drop_eq_nil_of_le (by omega)
    simp [parseLoop, hdrop, parseSpec]
  | succ fuel ih =>
    intro i hle
    by_cases h : i < lines.length
    · have hdrop : lines.drop i = lines[i] :: lines.drop (i + 1) :=
        List.drop_eq_getElem_cons h
      by_cases hm : extinfMark.isPrefixOf lines[i]
      · by_cases h2 : i + 1 < lines.length
        · have hdrop2 : lines.drop (i + 1) = lines[i + 1] :: lines.drop (i + 2) :=
            List.drop_eq_getElem_cons h2
          rw [hdrop, hdrop2]
          by_cases hh : hashMark.isPrefixOf lines[i + 1]
          · simp only [parseLoop, dif_pos h, if_pos hm, dif_pos h2, if_pos hh]
            rw [ih (i + 2) (by omega)]
            simp [parseSpec, hm, hh]
          · simp only [parseLoop, dif_pos h, if_pos hm, dif_pos h2, if_neg hh]
            rw [ih (i + 2) (by omega)]
            simp [parseSpec, hm, hh]
        · have hdrop2 : lines.drop (i + 1) = [] := List.drop_eq_nil_of_le (by omega)
          rw [hdrop, hdrop2]
          simp only [parseLoop, dif_pos h, if_pos hm, dif_neg h2]
          rw [ih (i + 2) (by omega)]
          have : lines.drop (i + 2) = [] := List.drop_eq_nil_of_le (by omega)
          simp [this, parseSpec]
      · simp only [parseLoop, dif_pos h, if_neg hm]
        rw [ih (i + 1) (by omega), hdrop,
          parseSpec_cons_of_not_extinf _ _
            (by simp only [Bool.not_eq_true] at hm; exact hm)]
    · have hdrop : lines.drop i = [] := List.drop_eq_nil_of_le (by omega)
      simp [parseLoop, h, hdrop, parseSpec]

/-- C7 counterexample: the middle line is a metadata line immediately followed
by a non-directive line, yet no entry at all is produced — the preceding
malformed metadata line makes the loop skip it, so a malformed pairing also
omits the neighbouring well-formed entry. -/
theorem C7_parser_counterexample :
    extinfMark.isPrefixOf (chars "#EXTINF:-1 tvg-id=\"Y\",b") = true ∧
    hashMark.isPrefixOf (chars "http://u") = false ∧
    parse_entries
      [chars "#EXTINF:-1 tvg-id=\"X\",a",
       chars "#EXTINF:-1 tvg-id=\"Y\",b",
       chars "http://u"] = [] := by
  decide

/-- C7 amended: parsing is total and the scanning loop behaves exactly as the
pairwise recursion `parseSpec`: a metadata line followed by a non-directive
line yields exactly one entry and consumes both lines; a metadata line
followed by a directive line yields no entry and still consumes both lines
(so a well-formed metadata line directly after a malformed one is also
omitted); any other line is skipped; a trailing metadata line with no
following line is dropped. -/
theorem C7_parser_amended (lines : List (List Char)) :
    parse_entries lines = parseSpec lines := by
  have h := parseLoop_eq_spec lines (lines.length + 1) 0 (by omega)
  simpa [parse_entries] using h

/-! ### Deduplication (C3) -/

/-- A list with at most one element is recovered from its last element. -/
theorem eq_getLastD_of_len_le_one {α : Type} (l : List α) (h : l.length ≤ 1) :
    l = l.getLast?.toList := by
  match l with
  | [] => rfl
  | [x] => rfl
  | x :: y :: rest => simp at h

/-- Filtering is monotone over a cons for length purposes. -/
theorem length_filter_le_cons {α : Type} (p : α → Bool) (x : α) (l : List α) :
    (l.filter p).length ≤ ((x :: l).filter p).length := by
  by_cases hx : p x <;> simp [List.filter_cons, hx]

/-- Effect of one Python-dict insertion on the entries filtered at a key,
assuming the dict invariant (at most one entry per key). -/
theorem dictInsert_filter (d : List ParsedEntry) (e : ParsedEntry) (k : List Char)
    (hinv : ∀ k', ((d.filter (fun x => decide (x.cleanId = k'))).length ≤ 1)) :
    (dictInsert d e).filter (fun x => decide (x.cleanId = k)) =
      if e.cleanId = k then [e] else d.filter (fun x => decide (x.cleanId = k)) := by
  induction d with
  | nil =>
    by_cases hek : e.cleanId = k <;> simp [dictInsert, List.filter_cons, hek]
  | cons x rest ih =>
    have hinv' : ∀ k', ((rest.filter (fun y => decide (y.cleanId = k'))).length ≤ 1) :=
      fun k' => le_trans (length_filter_le_cons _ x rest) (hinv k')
    by_cases hxe : x.cleanId = e.cleanId
    · by_cases hek : e.cleanId = k
      · have hxk : x.cleanId = k := hxe.trans hek
        have hrest : rest.filter (fun y => decide (y.cleanId = k)) = [] := by
          have hcount := hinv k
          rw [List.filter_cons_of_pos (by simpa using hxk)] at hcount
          simp only [List.length_cons] at hcount
          exact List.length_eq_zero.mp (by omega)
        simp [dictInsert, hxe, List.filter_cons, hek, hrest]
      · have hxk : ¬ x.cleanId = k := fun hxk => hek (hxe.symm.trans hxk)
        simp [dictInsert, hxe, List.filter_cons, hek, hxk]
    · by_cases hek : e.cleanId = k
      · have hxk : ¬ x.cleanId = k := fun hxk => hxe (hxk.trans hek.symm)
        simp [dictInsert, hxe, List.filter_cons, hxk, ih hinv', hek]
      · by_cases hxk : x.cleanId = k
        · have hke : ¬ k = e.cleanId := fun h => hxe (hxk.trans h)
          simp [dictInsert, hxe, List.filter_cons, hxk, ih hinv', hek, hke]
        · simp [dictInsert, hxe, List.filter_cons, hxk, ih hinv', hek]

/-- Python-dict insertion preserves the at-most-one-per-key invariant. -/
theorem dictInsert_inv (d : List ParsedEntry) (e : ParsedEntry)
    (hinv : ∀ k', ((d.filter (fun x => decide (x.cleanId = k'))).length ≤ 1)) :
    ∀ k, (((dictInsert d e).filter (fun x => decide (x.cleanId = k))).length ≤ 1) := by
  intro k
  rw [dictInsert_filter d e k hinv]
  by_cases hek : e.cleanId = k <;> simp [hek, hinv k]

/-- Folding Python-dict insertions: the surviving entry at each key is the
last inserted one. -/
theorem foldl_dictInsert_filter (es : List ParsedEntry) :
    ∀ (d : List ParsedEntry) (k : List Char),
      (∀ k', ((d.filter (fun x => decide (x.cleanId = k'))).length ≤ 1)) →
      (es.foldl dictInsert d).filter (fun x => decide (x.cleanId = k)) =
        ((d.filter (fun x => decide (x.cleanId = k)) ++
          es.filter (fun x => decide (x.cleanId = k))).getLast?).toList := by
  induction es with
  | nil =>
    intro d k hinv
    simpa using eq_getLastD_of_len_le_one _ (hinv k)
  | cons e es ih =>
    intro d k hinv
    have step := ih (dictInsert d e) k (dictInsert_inv d e hinv)
    rw [List.foldl_cons] at *
    rw [step, dictInsert_filter d e k hinv]
    by_cases hek : e.cleanId = k
    · rw [if_pos hek, List.filter_cons_of_pos (by simpa using hek),
        List.singleton_append,
        List.getLast?_append_of_ne_nil _ (List.cons_ne_nil e _)]
    · rw [if_neg hek, List.filter_cons_of_neg (by simpa using hek)]

/-- Stable insertion permutes to a cons. -/
theorem insertSorted_perm {α : Type} (le : α → α → Bool) (x : α) (l : List α) :
    List.Perm (insertSorted le x l) (x :: l) := by
  induction l with
  | nil => exact List.Perm.refl _
  | cons y ys ih =>
    by_cases h : le y x
    · simpa [insertSorted, h] using ((ih.cons y).trans (List.Perm.swap x y ys))
    · simp [insertSorted, h]

/-- The insertion-sort fold permutes to the accumulator plus the input. -/
theorem pySort_fold_perm {α : Type} (le : α → α → Bool) (l : List α) :
    ∀ acc : List α,
      List.Perm (l.foldl (fun a x => insertSorted le x a) acc) (acc ++ l) := by
  induction l with
  | nil => intro acc; simp
  | cons x xs ih =>
    intro acc
    have h2 : List.Perm (insertSorted le x acc ++ xs) ((x :: acc) ++ xs) :=
      (insertSorted_perm le x acc).append_right xs
    exact ((ih (insertSorted le x acc)).trans h2).trans List.perm_middle.symm

/-- The modelled stable sort is a permutation. -/
theorem pySort_perm {α : Type} (le : α → α → Bool) (l : List α) :
    List.Perm (pySort le l) l := by
  simpa [pySort] using pySort_fold_perm le l []

/-- C3: when the input playlist contains two or more entries whose identities
canonicalize to the same key, the output of the pipeline contains exactly one
entry for that key, and it is the (normalized) occurrence parsed last. -/
theorem C3_dedup_last_wins (content : List Char) (k : List Char)
    (hdup : 2 ≤ ((m3uEntries content).filter (fun e => decide (e.cleanId = k))).length) :
    ∃ e, ((m3uEntries content).filter (fun x => decide (x.cleanId = k))).getLast? = some e ∧
      (m3uSorted content).filter (fun x => decide (x.cleanId = k)) = [e] := by
  have hunique :
      (m3uUnique content).filter (fun x => decide (x.cleanId = k)) =
        (((m3uEntries content).filter (fun x => decide (x.cleanId = k))).getLast?).toList := by
    have h := foldl_dictInsert_filter (m3uEntries content) [] k (by intro k'; simp)
    simpa [m3uUnique] using h
  have hne : ((m3uEntries content).filter (fun x => decide (x.cleanId = k))) ≠ [] := by
    intro habs
    rw [habs] at hdup
    simp at hdup
  rcases hlast : ((m3uEntries content).filter (fun x => decide (x.cleanId = k))).getLast? with _ | e
  · exact absurd (List.getLast?_eq_none_iff.mp hlast) hne
  · refine ⟨e, hlast, ?_⟩
    have hperm :
        List.Perm ((m3uSorted content).filter (fun x => decide (x.cleanId = k)))
          ((m3uUnique content).filter (fun x => decide (x.cleanId = k))) :=
      (pySort_perm entryLE (m3uUnique content)).filter _
    rw [hunique, hlast] at hperm
    exact List.perm_singleton.mp hperm

/-- Witness for C3: the spec's Scenario A — `CCTV-1高清` and a later `CCTV1`
both canonicalize to `CCTV1`; the later entry (with URL `http://u2`) wins. -/
theorem C3_dedup_last_wins_witness :
    2 ≤ ((m3uEntries (chars "#EXTM3U\n#EXTINF:-1 tvg-id=\"CCTV-1高清\",One\nhttp://u1\n#EXTINF:-1 tvg-id=\"CCTV1\",Two\nhttp://u2")).filter
          (fun e => decide (e.cleanId = chars "CCTV1"))).length ∧
    ∃ e, ((m3uEntries (chars "#EXTM3U\n#EXTINF:-1 tvg-id=\"CCTV-1高清\",One\nhttp://u1\n#EXTINF:-1 tvg-id=\"CCTV1\",Two\nhttp://u2")).filter
            (fun x => decide (x.cleanId = chars "CCTV1"))).getLast? = some e ∧
      (m3uSorted (chars "#EXTM3U\n#EXTINF:-1 tvg-id=\"CCTV-1高清\",One\nhttp://u1\n#EXTINF:-1 tvg-id=\"CCTV1\",Two\nhttp://u2")).filter
          (fun x => decide (x.cleanId = chars "CCTV1")) = [e] :=
  ⟨by decide,
   C3_dedup_last_wins
     (chars "#EXTM3U\n#EXTINF:-1 tvg-id=\"CCTV-1高清\",One\nhttp://u1\n#EXTINF:-1 tvg-id=\"CCTV1\",Two\nhttp://u2")
     (chars "CCTV1") (by decide)⟩

/-! ### Sort-order totality (C5) -/

/-- Characters with equal code points are equal. -/
theorem char_eq_of_toNat_eq {a b : Char} (h : a.toNat = b.toNat) : a = b :=
  Char.eq_of_val_eq (UInt32.ext h)

/-- Transitivity of the lexicographic string comparison. -/
theorem lexLt_trans : ∀ a b c : List Char,
    lexLt a b = true → lexLt b c = true → lexLt a c = true := by
  intro a
  induction a with
  | nil =>
    intro b c hab hbc
    cases b with
    | nil => simp [lexLt] at hab
    | cons y ys =>
      cases c with
      | nil => simp [lexLt] at hbc
      | cons z zs => simp [lexLt]
  | cons x xs ih =>
    intro b c hab hbc
    cases b with
    | nil => simp [lexLt] at hab
    | cons y ys =>
      cases c with
      | nil => simp [lexLt] at hbc
      | cons z zs =>
        simp only [lexLt, Bool.or_eq_true, Bool.and_eq_true, decide_eq_true_eq] at hab hbc ⊢
        rcases hab with h1 | ⟨he1, h1⟩ <;> rcases hbc with h2 | ⟨he2, h2⟩
        · left; omega
        · subst he2; left; exact h1
        · subst he1; left; exact h2
        · subst he1; subst he2; right; exact ⟨rfl, ih ys zs h1 h2⟩

/-- Totality (trichotomy) of the lexicographic string comparison. -/
theorem lexLt_total : ∀ a b : List Char, lexLt a b = true ∨ a = b ∨ lexLt b a = true := by
  intro a
  induction a with
  | nil =>
    intro b
    cases b with
    | nil => right; left; rfl
    | cons y ys => left; simp [lexLt]
  | cons x xs ih =>
    intro b
    cases b with
    | nil => right; right; simp [lexLt]
    | cons y ys =>
      rcases Nat.lt_trichotomy x.toNat y.toNat with h | h | h
      · left; simp [lexLt, h]
      · have hxy : x = y := char_eq_of_toNat_eq h
        subst hxy
        rcases ih ys with h' | h' | h'
        · left; simp [lexLt, h']
        · right; left; rw [h']
        · right; right; simp [lexLt, h']
      · right; right; simp [lexLt, h]

/-- Transitivity of the non-strict key order. -/
theorem keyLE_trans (a b c : Nat × Nat × List Char)
    (hab : keyLE a b = true) (hbc : keyLE b c = true) : keyLE a c = true := by
  simp only [keyLE, Bool.or_eq_true, Bool.and_eq_true, decide_eq_true_eq] at hab hbc ⊢
  rcases hab with h1 | ⟨he1, h1⟩
  · rcases hbc with h2 | ⟨he2, h2⟩
    · left; omega
    · left; omega
  · rcases hbc with h2 | ⟨he2, h2⟩
    · left; omega
    · right
      refine ⟨he1.trans he2, ?_⟩
      rcases h1 with h1 | ⟨hf1, h1⟩
      · rcases h2 with h2 | ⟨hf2, h2⟩
        · left; omega
        · left; omega
      · rcases h2 with h2 | ⟨hf2, h2⟩
        · left; omega
        · right
          refine ⟨hf1.trans hf2, ?_⟩
          rcases h1 with h1 | h1
          · rcases h2 with h2 | h2
            · left; exact lexLt_trans _ _ _ h1 h2
            · left; rw [← h2]; exact h1
          · rcases h2 with h2 | h2
            · left; rw [h1]; exact h2
            · right; exact h1.trans h2

/-- Totality of the non-strict key order. -/
theorem keyLE_total (a b : Nat × Nat × List Char) :
    keyLE a b = true ∨ keyLE b a = true := by
  simp only [keyLE, Bool.or_eq_true, Bool.and_eq_true, decide_eq_true_eq]
  rcases Nat.lt_trichotomy a.1 b.1 with h | h | h
  · left; left; exact h
  · rcases Nat.lt_trichotomy a.2.1 b.2.1 with h' | h' | h'
    · left; right; exact ⟨h, Or.inl h'⟩
    · rcases lexLt_total a.2.2 b.2.2 with h'' | h'' | h''
      · left; right; exact ⟨h, Or.inr ⟨h', Or.inl h''⟩⟩
      · left; right; exact ⟨h, Or.inr ⟨h', Or.inr h''⟩⟩
      · right; right; exact ⟨h.symm, Or.inr ⟨h'.symm, Or.inl h''⟩⟩
    · right; right; exact ⟨h.symm, Or.inl h'⟩
  · right; left; exact h

/-- A key comparison bounds the category weights. -/
theorem keyLE_rank (a b : Nat × Nat × List Char) (h : keyLE a b = true) :
    a.1 ≤ b.1 := by
  simp only [keyLE, Bool.or_eq_true, Bool.and_eq_true, decide_eq_true_eq] at h
  rcases h with h | ⟨he, _⟩
  · omega
  · omega

/-- Transitivity of the entry comparison. -/
theorem entryLE_trans (a b c : ParsedEntry)
    (hab : entryLE a b = true) (hbc : entryLE b c = true) : entryLE a c = true :=
  keyLE_trans _ _ _ hab hbc

/-- Totality of the entry comparison. -/
theorem entryLE_total (a b : ParsedEntry) :
    entryLE a b = true ∨ entryLE b a = true :=
  keyLE_total _ _

/-- Stable insertion preserves sortedness for a total transitive comparison. -/
theorem insertSorted_pairwise {α : Type} (le : α → α → Bool)
    (htot : ∀ a b, le a b = true ∨ le b a = true)
    (htr : ∀ a b c, le a b = true → le b c = true → le a c = true)
    (x : α) (l : List α) (hl : l.Pairwise (fun a b => le a b = true)) :
    (insertSorted le x l).Pairwise (fun a b => le a b = true) := by
  induction l with
  | nil => simp [insertSorted]
  | cons y ys ih =>
    rcases List.pairwise_cons.mp hl with ⟨hy, hys⟩
    by_cases h : le y x
    · rw [insertSorted, if_pos h]
      refine List.pairwise_cons.mpr ⟨?_, ih hys⟩
      intro z hz
      rcases List.mem_cons.mp ((insertSorted_perm le x ys).mem_iff.mp hz) with hz | hz
      · subst hz; exact h
      · exact hy z hz
    · rw [insertSorted, if_neg h]
      have hxy : le x y = true := by
        rcases htot x y with h' | h'
        · exact h'
        · exact absurd h' h
      refine List.pairwise_cons.mpr ⟨?_, hl⟩
      intro z hz
      rcases List.mem_cons.mp hz with hz | hz
      · subst hz; exact hxy
      · exact htr x y z hxy (hy z hz)

/-- The modelled stable sort produces a list sorted under a total transitive
comparison. -/
theorem pySort_pairwise {α : Type} (le : α → α → Bool)
    (htot : ∀ a b, le a b = true ∨ le b a = true)
    (htr : ∀ a b c, le a b = true → le b c = true → le a c = true)
    (l : List α) :
    (pySort le l).Pairwise (fun a b => le a b = true) := by
  have hgen : ∀ acc : List α, acc.Pairwise (fun a b => le a b = true) →
      (l.foldl (fun a x => insertSorted le x a) acc).Pairwise (fun a b => le a b = true) := by
    induction l with
    | nil => intro acc hacc; exact hacc
    | cons x xs ih =>
      intro acc hacc
      exact ih (insertSorted le x acc) (insertSorted_pairwise le htot htr x acc hacc)
  exact hgen [] (by simp)

/-- C5 counterexample: on this concrete playlist the output begins with the
satellite-suffixed identity `CCTVX卫视` and only then lists the
numbered-family identity `CCTV9` — the claim requires every numbered-family
entry to precede every satellite-suffix entry.  An identity starting with the
family prefix is given category rank 0 even when it ends in the satellite
suffix, and its missing channel number becomes ordinal 0. -/
theorem C5_order_counterexample :
    ((m3uSorted (chars "#EXTM3U\n#EXTINF:-1 tvg-id=\"CCTV9\",a\nhttp://u1\n#EXTINF:-1 tvg-id=\"CCTVX卫视\",b\nhttp://u2")).map
        (fun e => e.cleanId)) = [chars "CCTVX卫视", chars "CCTV9"] ∧
    (chars "卫视").isSuffixOf (chars "CCTVX卫视") = true ∧
    cctvTok.isPrefixOf (chars "CCTV9") = true ∧
    searchCCTVNum (chars "CCTV9") = some ['9'] := by
  decide

/-- C5 amended: the output of the pipeline is non-decreasing under the
source's sort key, whose category ranks are: 0 for any identity starting
with the family prefix other than the bare prefix itself (its ordinal being
the first parsed channel number, 0 when none parses), 1 for identities not
starting with the prefix that end in the satellite suffix, 2 for the bare
prefix, 3 for the rest; consequently the category ranks are non-decreasing
along the output, so all rank-0 entries precede all rank-1 entries, which
precede all rank-2 and rank-3 entries. -/
theorem C5_sorted_amended (content : List Char) :
    ((m3uSorted content).map (fun e => e.cleanId)).Pairwise
      (fun a b => keyLE (sort_key a) (sort_key b) = true) ∧
    ((m3uSorted content).map (fun e => e.cleanId)).Pairwise
      (fun a b => (sort_key a).1 ≤ (sort_key b).1) := by
  have h := pySort_pairwise entryLE entryLE_total entryLE_trans (m3uUnique content)
  constructor
  · rw [List.pairwise_map]
    exact h
  · rw [List.pairwise_map]
    exact h.imp (fun hab => keyLE_rank _ _ hab)

/-! ### Idempotence of the canonicalization rules (C6) -/

/-- Bool substring containment agrees with the infix relation. -/
theorem listContains_iff (pat : List Char) :
    ∀ s, listContains pat s = true ↔ pat <:+: s := by
  intro s
  induction s with
  | nil =>
    simp only [listContains, List.isEmpty_iff, List.infix_nil]
  | cons c rest ih =>
    simp only [listContains, Bool.or_eq_true, List.infix_cons_iff, ih]
    constructor
    · rintro (h | h)
      · exact Or.inl (List.isPrefixOf_iff_prefix.mp h)
      · exact Or.inr h
    · rintro (h | h)
      · exact Or.inl (List.isPrefixOf_iff_prefix.mpr h)
      · exact Or.inr h

/-- A pattern that does not occur is not replaced (fuel worker). -/
theorem pyReplaceFuel_not_sub (pat rep : List Char) :
    ∀ (fuel : Nat) (s : List Char), ¬ pat <:+: s →
      pyReplaceFuel pat rep fuel s = s := by
  intro fuel
  induction fuel with
  | zero => intro s _; rfl
  | succ fuel ih =>
    intro s hs
    match s with
    | [] => rfl
    | c :: rest =>
      rw [pyReplaceFuel, if_neg, ih rest (fun h => hs (List.infix_cons_iff.mpr (Or.inr h)))]
      rintro ⟨-, hpre⟩
      exact hs (List.infix_cons_iff.mpr (Or.inl (List.isPrefixOf_iff_prefix.mp hpre)))

/-- A pattern that does not occur is not replaced. -/
theorem pyReplace_not_sub (pat rep s : List Char) (h : ¬ pat <:+: s) :
    pyReplace pat rep s = s :=
  pyReplaceFuel_not_sub pat rep s.length s h

/-- Mapping a function that fixes every element is the identity. -/
theorem map_id_of_fix {α : Type} (f : α → α) :
    ∀ l : List α, (∀ c ∈ l, f c = c) → l.map f = l := by
  intro l
  induction l with
  | nil => intro _; rfl
  | cons a as ih =>
    intro h
    rw [List.map_cons, h a (List.mem_cons_self a as),
      ih (fun c hc => h c (List.mem_cons_of_mem a hc))]

/-- Numeric bounds of an ASCII digit. -/
theorem digit_bounds {c : Char} (h : c.isDigit = true) :
    48 ≤ c.toNat ∧ c.toNat ≤ 57 := by
  simp [Char.isDigit] at h
  exact ⟨h.1, h.2⟩

/-- Uppercasing fixes a digit. -/
theorem digit_toUpper {c : Char} (h : c.isDigit = true) : c.toUpper = c := by
  obtain ⟨h1, h2⟩ := digit_bounds h
  unfold Char.toUpper
  rw [if_neg (by omega)]

/-- A digit is not Python whitespace. -/
theorem digit_not_pyspace {c : Char} (h : c.isDigit = true) :
    isPySpace c = false := by
  obtain ⟨h1, h2⟩ := digit_bounds h
  rw [Bool.eq_false_iff]
  intro habs
  unfold isPySpace at habs
  simp only [Bool.or_eq_true, Bool.and_eq_true, decide_eq_true_eq] at habs
  omega

/-- A digit fails the separator class of the family pattern. -/
theorem digit_not_sep {c : Char} (h : c.isDigit = true) :
    ¬ (c = '-' ∨ isPySpace c = true) := by
  rintro (rfl | habs)
  · exact absurd h (by decide)
  · rw [digit_not_pyspace h] at habs
    exact absurd habs (by decide)

/-- Taking while a predicate holds skips over an all-satisfying block. -/
theorem takeWhile_append_all (p : Char → Bool) (xs ys : List Char)
    (h : ∀ c ∈ xs, p c = true) :
    (xs ++ ys).takeWhile p = xs ++ ys.takeWhile p := by
  induction xs with
  | nil => simp
  | cons a as ih =>
    simp [List.takeWhile_cons, h a (by simp)]
    exact ih (fun c hc => h c (by simp [hc]))

/-- A successful digit split yields a non-empty all-digit group. -/
theorem numSplit_digits {l num r : List Char}
    (h : numSplit l = some (num, r)) :
    num ≠ [] ∧ ∀ c ∈ num, c.isDigit = true := by
  rcases l with _ | ⟨d, rest⟩
  · simp [numSplit] at h
  · by_cases hd : d.isDigit = true
    · rw [numSplit, if_pos hd] at h
      simp only [Option.some.injEq, Prod.mk.injEq] at h
      obtain ⟨h1, -⟩ := h
      subst h1
      refine ⟨by simp [List.takeWhile_cons, hd], fun c hc => ?_⟩
      exact List.mem_takeWhile_imp hc
    · rw [numSplit, if_neg hd] at h
      simp at h

/-- Digit split of a digit block followed by a non-digit remainder. -/
theorem numSplit_append {num tail : List Char} (hne : num ≠ [])
    (hdig : ∀ c ∈ num, c.isDigit = true)
    (htail : ∀ d rest, tail = d :: rest → d.isDigit = false) :
    numSplit (num ++ tail) = some (num, tail) := by
  rcases num with _ | ⟨d, num'⟩
  · exact absurd rfl hne
  · have hd : d.isDigit = true := hdig d (by simp)
    have htw : ((d :: num') ++ tail).takeWhile Char.isDigit = d :: num' := by
      rw [takeWhile_append_all Char.isDigit (d :: num') tail hdig]
      rcases tail with _ | ⟨t, rest⟩
      · simp
      · rw [List.takeWhile_cons, htail t rest rfl]
        simp
    rw [List.cons_append]
    simp only [numSplit]
    rw [if_pos hd, ← List.cons_append, htw, List.drop_left]

/-- A successful separator split yields a non-empty all-digit group. -/
theorem sepSplit_digits {l num r : List Char}
    (h : sepSplit l = some (num, r)) :
    num ≠ [] ∧ ∀ c ∈ num, c.isDigit = true := by
  rcases l with _ | ⟨c, rest2⟩
  · simp [sepSplit] at h
  · rw [sepSplit] at h
    by_cases hc : c = '-' ∨ isPySpace c = true
    · rw [if_pos hc] at h
      exact numSplit_digits h
    · rw [if_neg hc] at h
      exact numSplit_digits h

/-- Separator split of a digit block followed by a non-digit remainder. -/
theorem sepSplit_append {num tail : List Char} (hne : num ≠ [])
    (hdig : ∀ c ∈ num, c.isDigit = true)
    (htail : ∀ d rest, tail = d :: rest → d.isDigit = false) :
    sepSplit (num ++ tail) = some (num, tail) := by
  rcases num with _ | ⟨d, num'⟩
  · exact absurd rfl hne
  · rw [List.cons_append, sepSplit,
      if_neg (digit_not_sep (hdig d (by simp))), ← List.cons_append]
    exact numSplit_append hne hdig htail

/-- The `$` model succeeds unchanged on a newline-free remainder. -/
theorem dollarSuffix_no_nl {r : List Char} (h : '\n' ∉ r) :
    dollarSuffix r = some r := by
  rw [dollarSuffix, if_neg h]

/-- A successful family match yields a non-empty all-digit number group. -/
theorem matchCCTV_digits {s num suf : List Char}
    (h : matchCCTV s = some (num, suf)) :
    num ≠ [] ∧ ∀ c ∈ num, c.isDigit = true := by
  rcases hcc : ciCCTVHead s with _ | rest
  · rw [matchCCTV, hcc] at h
    simp at h
  · rcases hsep : sepSplit rest with _ | ⟨num', r⟩
    · rw [matchCCTV, hcc] at h
      simp [hsep] at h
    · rcases hds : dollarSuffix r with _ | suf'
      · rw [matchCCTV, hcc] at h
        simp [hsep, hds] at h
      · rw [matchCCTV, hcc] at h
        simp [hsep, hds] at h
        obtain ⟨h1, -⟩ := h
        subst h1
        exact sepSplit_digits hsep

/-- The case-insensitive family head matches the canonical upper-case token. -/
theorem ciCCTVHead_cctv (r : List Char) :
    ciCCTVHead (cctvTok ++ r) = some r := rfl

/-- Family match of a canonical form `CCTV<digits><tail>` with a non-digit,
newline-free tail. -/
theorem matchCCTV_form {num tail : List Char} (hne : num ≠ [])
    (hdig : ∀ c ∈ num, c.isDigit = true)
    (htail : ∀ d rest, tail = d :: rest → d.isDigit = false)
    (hnl : '\n' ∉ tail) :
    matchCCTV (cctvTok ++ num ++ tail) = some (num, tail) := by
  rw [matchCCTV, List.append_assoc, ciCCTVHead_cctv]
  simp [sepSplit_append hne hdig htail, dollarSuffix_no_nl hnl]

/-- Containment holds for a prefix. -/
theorem listContains_of_prefix {pat s : List Char} (h : pat <+: s) :
    listContains pat s = true :=
  (listContains_iff pat s).mpr h.isInfix

/-- Branch lemma: value of `clean_cctv_name` when the marker is absent, the
gate holds and the family pattern matches (non-logo name types). -/
theorem clean_cctv_name_match (name : List Char) (nt : String)
    (num tail0 : List Char) (hne : name ≠ []) (hnt : nt ≠ "logo")
    (hrep : pyReplace gaoqing [] name = name)
    (hgate : listContains cctvTok (upperList name) = true)
    (hm : matchCCTV name = some (num, tail0)) :
    clean_cctv_name name nt =
      (if (pyStrip tail0).getLast? = some '+' ∨ (pyStrip tail0).getLast? = some '＋' then
         cctvTok ++ num ++ ['+']
       else
         match findPreserve (pyStrip tail0) with
         | some ps => cctvTok ++ num ++ '-' :: ps
         | none => cctvTok ++ num) := by
  simp only [clean_cctv_name, if_neg hne, hrep, hgate, hm, if_true]
  by_cases hplus : (pyStrip tail0).getLast? = some '+' ∨ (pyStrip tail0).getLast? = some '＋'
  · rw [if_pos hplus, if_neg (fun hc => hnt hc.1)]
  · rw [if_neg hplus, if_neg (fun hc => hnt hc.1)]

/-- Branch lemma: `clean_cctv_name` is the identity when the marker is absent
and either the gate fails or the family pattern does not match. -/
theorem clean_cctv_name_nomatch (name : List Char) (nt : String)
    (hrep : pyReplace gaoqing [] name = name)
    (hcase : listContains cctvTok (upperList name) = false ∨
             matchCCTV name = none) :
    clean_cctv_name name nt = name := by
  by_cases hne : name = []
  · subst hne; rw [clean_cctv_name, if_pos rfl]
  · rcases hcase with hgate | hm
    · simp only [clean_cctv_name, if_neg hne, hrep, hgate]
      simp
    · by_cases hgate : listContains cctvTok (upperList name) = true
      · simp only [clean_cctv_name, if_neg hne, hrep, hgate, hm, if_true]
        simp
      · have hgf : listContains cctvTok (upperList name) = false :=
          Bool.eq_false_iff.mpr hgate
        simp only [clean_cctv_name, if_neg hne, hrep, hgf]
        simp

/-- Facts about each preserved suffix needed for the fixed-point argument. -/
theorem preserve_facts (ps : List Char) (hps : ps ∈ preserve_suffixes) :
    pyStrip ('-' :: ps) = '-' :: ps ∧
    ('-' :: ps).getLast? ≠ some '+' ∧ ('-' :: ps).getLast? ≠ some '＋' ∧
    findPreserve ('-' :: ps) = some ps ∧
    '\n' ∉ ('-' :: ps) ∧ '高' ∉ ('-' :: ps) ∧
    upperList ('-' :: ps) = '-' :: ps ∧ 'V' ∉ ('-' :: ps) ∧
    (∀ d rest, ('-' :: ps) = d :: rest → d.isDigit = false) := by
  fin_cases hps <;>
    exact ⟨by decide, by decide, by decide, by decide, by decide, by decide,
      by decide, by decide, fun d rest h => by injection h with h1 h2; subst h1; decide⟩

/-- The high-definition marker does not occur in a canonical family form. -/
theorem no_gaoqing_form (num tail : List Char)
    (hdig : ∀ c ∈ num, c.isDigit = true) (htail : '高' ∉ tail) :
    ¬ gaoqing <:+: (cctvTok ++ num ++ tail) := by
  intro hinf
  have hmem : '高' ∈ cctvTok ++ num ++ tail := hinf.subset (by decide)
  rcases List.mem_append.mp hmem with hmem | hmem
  · rcases List.mem_append.mp hmem with hmem | hmem
    · exact absurd hmem (by decide)
    · have := hdig _ hmem
      exact absurd this (by decide)
  · exact htail hmem

/-- The gate holds for a canonical family form. -/
theorem gate_form (r : List Char) :
    listContains cctvTok (upperList (cctvTok ++ r)) = true := by
  have : upperList (cctvTok ++ r) = cctvTok ++ upperList r := by
    unfold upperList
    rw [List.map_append]
    rfl
  rw [this]
  exact listContains_of_prefix (List.prefix_append _ _)

/-- Fixed point: cleaning a canonical family form returns it unchanged, for
any of the three produced tail shapes. -/
theorem clean_fix_form (nt : String) (num tail : List Char) (hne : num ≠ [])
    (hdig : ∀ c ∈ num, c.isDigit = true) (hnt : nt ≠ "logo")
    (hform : tail = [] ∨ tail = ['+'] ∨ ∃ ps ∈ preserve_suffixes, tail = '-' :: ps) :
    clean_cctv_name (cctvTok ++ num ++ tail) nt = cctvTok ++ num ++ tail := by
  have hnenil : cctvTok ++ num ++ tail ≠ [] := by simp [cctvTok, chars]
  rcases hform with rfl | rfl | ⟨ps, hps, rfl⟩
  · have hrep := pyReplace_not_sub gaoqing []
      (cctvTok ++ num ++ []) (no_gaoqing_form num [] hdig (by simp))
    have hm : matchCCTV (cctvTok ++ num ++ []) = some (num, []) :=
      matchCCTV_form hne hdig (by intro d rest h; simp at h) (by simp)
    rw [clean_cctv_name_match _ nt num [] hnenil hnt hrep (gate_form _) hm]
    rw [show findPreserve (pyStrip []) = none from by decide,
      if_neg (by decide)]
    simp
  · have hrep := pyReplace_not_sub gaoqing []
      (cctvTok ++ num ++ ['+']) (no_gaoqing_form num ['+'] hdig (by decide))
    have hm : matchCCTV (cctvTok ++ num ++ ['+']) = some (num, ['+']) :=
      matchCCTV_form hne hdig
        (by intro d rest h; injection h with h1 h2; subst h1; decide) (by decide)
    rw [clean_cctv_name_match _ nt num ['+'] hnenil hnt hrep (gate_form _) hm]
    rw [if_pos (by left; decide)]
  · obtain ⟨hstrip, hp1, hp2, hfp, hnl, hgq, hupper, hV, hhd⟩ := preserve_facts ps hps
    have hrep := pyReplace_not_sub gaoqing []
      (cctvTok ++ num ++ ('-' :: ps)) (no_gaoqing_form num ('-' :: ps) hdig hgq)
    have hm : matchCCTV (cctvTok ++ num ++ ('-' :: ps)) = some (num, '-' :: ps) :=
      matchCCTV_form hne hdig hhd hnl
    rw [clean_cctv_name_match _ nt num ('-' :: ps) hnenil hnt hrep (gate_form _) hm]
    rw [hstrip, if_neg (by rintro (h | h); exact hp1 h; exact hp2 h), hfp]

/-- Shape of a cleaned value under an absent marker: either unchanged, or one
of the three canonical family forms. -/
theorem clean_shape (nt : String) (hnt : nt ≠ "logo") (s : List Char)
    (hs : s ≠ []) (hng : ¬ gaoqing <:+: s) :
    clean_cctv_name s nt = s ∨
    ∃ num tail, num ≠ [] ∧ (∀ c ∈ num, c.isDigit = true) ∧
      (tail = [] ∨ tail = ['+'] ∨ ∃ ps ∈ preserve_suffixes, tail = '-' :: ps) ∧
      clean_cctv_name s nt = cctvTok ++ num ++ tail := by
  have hrep := pyReplace_not_sub gaoqing [] s hng
  by_cases hgate : listContains cctvTok (upperList s) = true
  · rcases hm : matchCCTV s with _ | ⟨num, tail0⟩
    · exact Or.inl (clean_cctv_name_nomatch s nt hrep (Or.inr hm))
    · obtain ⟨hnum, hdig⟩ := matchCCTV_digits hm
      have hfs := clean_cctv_name_match s nt num tail0 hs hnt hrep hgate hm
      right
      by_cases hplus : (pyStrip tail0).getLast? = some '+' ∨ (pyStrip tail0).getLast? = some '＋'
      · exact ⟨num, ['+'], hnum, hdig, Or.inr (Or.inl rfl), by rw [hfs, if_pos hplus]⟩
      · rcases hfp : findPreserve (pyStrip tail0) with _ | ps
        · refine ⟨num, [], hnum, hdig, Or.inl rfl, ?_⟩
          rw [hfs, if_neg hplus, hfp]
          simp
        · refine ⟨num, '-' :: ps, hnum, hdig,
            Or.inr (Or.inr ⟨ps, List.mem_of_find?_eq_some hfp, rfl⟩), ?_⟩
          rw [hfs, if_neg hplus, hfp]
  · exact Or.inl
      (clean_cctv_name_nomatch s nt hrep (Or.inl (Bool.eq_false_iff.mpr hgate)))

/-- Idempotence of the shared cleaning rule when the marker is absent (the
logo name type, which additionally strips characters, is excluded). -/
theorem clean_idem_of_no_gaoqing (nt : String) (hnt : nt ≠ "logo")
    (s : List Char) (hng : ¬ gaoqing <:+: s) :
    clean_cctv_name (clean_cctv_name s nt) nt = clean_cctv_name s nt := by
  by_cases hs : s = []
  · subst hs
    have hnil : clean_cctv_name ([] : List Char) nt = [] := by
      unfold clean_cctv_name
      rw [if_pos rfl]
    rw [hnil]
    exact hnil
  · rcases clean_shape nt hnt s hs hng with heq | ⟨num, tail, hnum, hdig, hform, heq⟩
    · rw [heq]
      exact heq
    · rw [heq]
      exact clean_fix_form nt num tail hnum hdig hnt hform

/-- The transposed family token does not occur in the uppercasing of a
canonical family form with a digit number and an upper-fixed, `V`-free
tail. -/
theorem no_ccvt_form (num tail : List Char)
    (hdig : ∀ c ∈ num, c.isDigit = true)
    (hupper : upperList tail = tail) (hV : 'V' ∉ tail) :
    ¬ ccvtTok <:+: upperList (cctvTok ++ num ++ tail) := by
  have hU : upperList (cctvTok ++ num ++ tail) = cctvTok ++ num ++ tail := by
    unfold upperList at *
    rw [List.map_append, List.map_append,
      show cctvTok.map Char.toUpper = cctvTok from by decide,
      map_id_of_fix Char.toUpper num (fun c hc => digit_toUpper (hdig c hc)), hupper]
  rw [hU, show cctvTok ++ num ++ tail = 'C' :: 'C' :: 'T' :: 'V' :: (num ++ tail) from by
    rw [List.append_assoc]; rfl]
  intro hinf
  rcases List.infix_cons_iff.mp hinf with hp | hinf
  · rw [show ccvtTok = ['C', 'C', 'V', 'T'] from by decide] at hp
    simp [List.cons_prefix_cons] at hp
  rcases List.infix_cons_iff.mp hinf with hp | hinf
  · rw [show ccvtTok = ['C', 'C', 'V', 'T'] from by decide] at hp
    simp [List.cons_prefix_cons] at hp
  rcases List.infix_cons_iff.mp hinf with hp | hinf
  · rw [show ccvtTok = ['C', 'C', 'V', 'T'] from by decide] at hp
    simp [List.cons_prefix_cons] at hp
  rcases List.infix_cons_iff.mp hinf with hp | hinf
  · rw [show ccvtTok = ['C', 'C', 'V', 'T'] from by decide] at hp
    simp [List.cons_prefix_cons] at hp
  have hVmem : 'V' ∈ num ++ tail := hinf.subset (by decide)
  rcases List.mem_append.mp hVmem with h | h
  · exact absurd (hdig _ h) (by decide)
  · exact hV h

/-- With no transposition present, the identity rule reduces to the shared
cleaning rule. -/
theorem clean_tvg_id_no_ccvt (s : List Char) (hnc : ¬ ccvtTok <:+: upperList s) :
    clean_tvg_id s = clean_cctv_name s "tvg_id" := by
  have hgf : listContains ccvtTok (upperList s) = false :=
    Bool.eq_false_iff.mpr (fun h => hnc ((listContains_iff _ _).mp h))
  simp only [clean_tvg_id, hgf]
  simp

/-- Idempotence of the identity rule when neither the marker nor the
transposition occurs. -/
theorem clean_tvg_idem (s : List Char) (hng : ¬ gaoqing <:+: s)
    (hnc : ¬ ccvtTok <:+: upperList s) :
    clean_tvg_id (clean_tvg_id s) = clean_tvg_id s := by
  have hcorr := clean_tvg_id_no_ccvt s hnc
  by_cases hs : s = []
  · subst hs
    have hnil : clean_tvg_id ([] : List Char) = [] := by decide
    rw [hnil]
    exact hnil
  · rcases clean_shape "tvg_id" (by decide) s hs hng with heq | ⟨num, tail, hnum, hdig, hform, heq⟩
    · have hgs : clean_tvg_id s = s := hcorr.trans heq
      rw [hgs]
      exact hgs
    · have hgs : clean_tvg_id s = cctvTok ++ num ++ tail := hcorr.trans heq
      rw [hgs]
      have htail : upperList tail = tail ∧ 'V' ∉ tail := by
        rcases hform with rfl | rfl | ⟨ps, hps, rfl⟩
        · exact ⟨rfl, by decide⟩
        · exact ⟨by decide, by decide⟩
        · obtain ⟨-, -, -, -, -, -, hupper, hV, -⟩ := preserve_facts ps hps
          exact ⟨hupper, hV⟩
      have hnc' := no_ccvt_form num tail hdig htail.1 htail.2
      rw [clean_tvg_id_no_ccvt _ hnc']
      exact clean_fix_form "tvg_id" num tail hnum hdig (by decide) hform

/-- C6 counterexample: canonicalization is not idempotent.  Removing the
non-overlapping occurrences of the marker `高清` from `高高清清` leaves a new
occurrence `高清`, which a second pass removes, breaking idempotence of the
group-label rule and of the display-name rule; the identity rule additionally
breaks on `CC高清VT`, where the marker removal creates the transposition
`CCVT` that only the second pass corrects (to `CCTV`). -/
theorem C6_idempotence_counterexample :
    pyReplace gaoqing [] (pyReplace gaoqing [] (chars "高高清清")) ≠
      pyReplace gaoqing [] (chars "高高清清") ∧
    clean_cctv_name (clean_cctv_name (chars "高高清清") "channel_name") "channel_name" ≠
      clean_cctv_name (chars "高高清清") "channel_name" ∧
    clean_tvg_id (clean_tvg_id (chars "CC高清VT")) ≠ clean_tvg_id (chars "CC高清VT") := by
  decide

/-- C6 amended: canonicalization is idempotent on every string in which the
high-definition marker `高清` does not occur (so that the marker removal pass
is trivially stable) — for the group-label rule and the display-name rule as
stated, and for the identity rule additionally requiring that the uppercased
string does not contain the transposition `CCVT`. -/
theorem C6_idempotence_amended (x : List Char) (hg : ¬ gaoqing <:+: x) :
    pyReplace gaoqing [] (pyReplace gaoqing [] x) = pyReplace gaoqing [] x ∧
    clean_cctv_name (clean_cctv_name x "channel_name") "channel_name" =
      clean_cctv_name x "channel_name" ∧
    (¬ ccvtTok <:+: upperList x →
      clean_tvg_id (clean_tvg_id x) = clean_tvg_id x) := by
  refine ⟨?_, ?_, ?_⟩
  · rw [pyReplace_not_sub gaoqing [] x hg]
    exact pyReplace_not_sub gaoqing [] x hg
  · exact clean_idem_of_no_gaoqing "channel_name" (by decide) x hg
  · intro hnc
    exact clean_tvg_idem x hg hnc

/-- Witness for C6 amended at the marker-free identity `CCTV5综合`. -/
theorem C6_idempotence_amended_witness :
    (¬ gaoqing <:+: chars "CCTV5综合") ∧
    (pyReplace gaoqing [] (pyReplace gaoqing [] (chars "CCTV5综合")) =
      pyReplace gaoqing [] (chars "CCTV5综合") ∧
    clean_cctv_name (clean_cctv_name (chars "CCTV5综合") "channel_name") "channel_name" =
      clean_cctv_name (chars "CCTV5综合") "channel_name" ∧
    (¬ ccvtTok <:+: upperList (chars "CCTV5综合") →
      clean_tvg_id (clean_tvg_id (chars "CCTV5综合")) = clean_tvg_id (chars "CCTV5综合"))) :=
  ⟨by decide, C6_idempotence_amended (chars "CCTV5综合") (by decide)⟩

/-! ### Round trip (C9) -/

/-- Dropping while a failing head leaves the list unchanged. -/
theorem dropWhile_eq_self_of_head (l : List Char) (p : Char → Bool)
    (h : ∀ c, l.head? = some c → p c = false) : l.dropWhile p = l := by
  cases l with
  | nil => rfl
  | cons a as => simp [List.dropWhile_cons, h a rfl]

/-- Characterization of strip-fixed strings by their end characters. -/
theorem pyStrip_eq_self_of_ends (s : List Char)
    (h1 : ∀ c, s.head? = some c → isPySpace c = false)
    (h2 : ∀ c, s.getLast? = some c → isPySpace c = false) :
    pyStrip s = s := by
  unfold pyStrip
  rw [dropWhile_eq_self_of_head s isPySpace h1]
  rw [dropWhile_eq_self_of_head s.reverse isPySpace
    (fun c hc => h2 c (by rwa [List.head?_reverse] at hc))]
  exact List.reverse_reverse s

/-- A strip-fixed string is already fixed by the leading drop. -/
theorem dropWhile_fix_of_pyStrip_fix (s : List Char) (hs : pyStrip s = s) :
    s.dropWhile isPySpace = s := by
  have hlen1 : (s.dropWhile isPySpace).length ≤ s.length :=
    (List.dropWhile_suffix isPySpace).length_le
  have hlen2 : (pyStrip s).length ≤ (s.dropWhile isPySpace).length := by
    unfold pyStrip
    rw [List.length_reverse]
    calc ((s.dropWhile isPySpace).reverse.dropWhile isPySpace).length
        ≤ (s.dropWhile isPySpace).reverse.length :=
          (List.dropWhile_suffix isPySpace).length_le
      _ = (s.dropWhile isPySpace).length := List.length_reverse _
  have hlen : (s.dropWhile isPySpace).length = s.length := by
    rw [hs] at hlen2
    omega
  exact (List.dropWhile_suffix isPySpace).eq_of_length hlen

/-- A strip-fixed string keeps its first character out of the space class. -/
theorem head_not_space_of_pyStrip_fix (s : List Char) (hs : pyStrip s = s)
    (c : Char) (hc : s.head? = some c) : isPySpace c = false := by
  have hdw := dropWhile_fix_of_pyStrip_fix s hs
  cases s with
  | nil => simp at hc
  | cons a as =>
    have hac : a = c := by simpa using hc
    subst hac
    by_cases hp : isPySpace a = true
    · rw [List.dropWhile_cons, if_pos hp] at hdw
      have hle := (List.dropWhile_suffix isPySpace (l := as)).length_le
      have hlen := congrArg List.length hdw
      simp at hlen
      omega
    · simpa using hp

/-- A strip-fixed string keeps its last character out of the space class. -/
theorem last_not_space_of_pyStrip_fix (s : List Char) (hs : pyStrip s = s)
    (c : Char) (hc : s.getLast? = some c) : isPySpace c = false := by
  have hdw := dropWhile_fix_of_pyStrip_fix s hs
  have hrev : s.reverse.dropWhile isPySpace = s.reverse := by
    have h2 : (s.reverse.dropWhile isPySpace).reverse = s := by
      have h3 : pyStrip s = (s.reverse.dropWhile isPySpace).reverse := by
        unfold pyStrip
        rw [hdw]
      rw [← h3, hs]
    have h4 := congrArg List.reverse h2
    simpa using h4
  cases hrv : s.reverse with
  | nil =>
    have hnil : s = [] := by simpa using congrArg List.reverse hrv
    rw [hnil] at hc
    simp at hc
  | cons a as =>
    have hac : a = c := by
      have h5 := List.head?_reverse s
      rw [hrv, hc] at h5
      simpa using h5
    subst hac
    rw [hrv] at hrev
    by_cases hp : isPySpace a = true
    · rw [List.dropWhile_cons, if_pos hp] at hrev
      have hle := (List.dropWhile_suffix isPySpace (l := as)).length_le
      have hlen := congrArg List.length hrev
      simp at hlen
      omega
    · simpa using hp

/-- Head of an append with a non-empty left part. -/
theorem head?_append_left (l₁ l₂ : List Char) (h : l₁ ≠ []) :
    (l₁ ++ l₂).head? = l₁.head? := by
  cases l₁ with
  | nil => exact absurd rfl h
  | cons a as => rfl

/-- Last element through a cons with a non-empty tail. -/
theorem getLast?_cons_ne_nil (a : Char) (l : List Char) (h : l ≠ []) :
    (a :: l).getLast? = l.getLast? := by
  rw [show a :: l = [a] ++ l from rfl, List.getLast?_append_of_ne_nil _ h]

/-- Splitting a newline-free string yields one piece. -/
theorem splitNl_no_nl (s : List Char) (h : '\n' ∉ s) : splitNl s = [s] := by
  induction s with
  | nil => rfl
  | cons c rest ih =>
    have hc : c ≠ '\n' := fun hcc => h (by simp [hcc])
    have hrest : '\n' ∉ rest := fun hr => h (by simp [hr])
    simp only [splitNl, ih hrest]
    rw [if_neg hc]

/-- Splitting never yields the empty list of pieces. -/
theorem splitNl_ne_nil (s : List Char) : splitNl s ≠ [] := by
  cases s with
  | nil => simp [splitNl]
  | cons c rest =>
    simp only [splitNl]
    cases splitNl rest with
    | nil => simp
    | cons hh tt => by_cases hc : c = '\n' <;> simp [hc]

/-- Splitting at an explicit newline after a newline-free block. -/
theorem splitNl_append (x r : List Char) (h : '\n' ∉ x) :
    splitNl (x ++ '\n' :: r) = x :: splitNl r := by
  induction x with
  | nil =>
    simp only [List.nil_append, splitNl]
    cases hsp : splitNl r with
    | nil => exact absurd hsp (splitNl_ne_nil r)
    | cons hh tt => simp
  | cons a xs ih =>
    have ha : a ≠ '\n' := fun hcc => h (by simp [hcc])
    have hxs : '\n' ∉ xs := fun hr => h (by simp [hr])
    rw [List.cons_append]
    simp only [splitNl, ih hxs]
    rw [if_neg ha]

/-- One-piece intercalation. -/
theorem intercalate_single (a : List Char) : List.intercalate ['\n'] [a] = a := by
  simp [List.intercalate]

/-- Two-or-more-piece intercalation. -/
theorem intercalate_cons_cons (a b : List Char) (t : List (List Char)) :
    List.intercalate ['\n'] (a :: b :: t) = a ++ '\n' :: List.intercalate ['\n'] (b :: t) := by
  simp [List.intercalate, List.intersperse]

/-- The joined two-line blocks split back into the individual lines. -/
theorem splitNl_lines :
    ∀ (es : List ParsedEntry) (e : ParsedEntry),
      (∀ x ∈ e :: es, '\n' ∉ metaLine x ∧ '\n' ∉ x.streamUrl) →
      splitNl (List.intercalate ['\n'] ((e :: es).map entryLine)) =
        (e :: es).flatMap (fun x => [metaLine x, x.streamUrl]) := by
  intro es
  induction es with
  | nil =>
    intro e hall
    obtain ⟨hm, hu⟩ := hall e (by simp)
    rw [List.map_cons, List.map_nil, intercalate_single, entryLine,
      splitNl_append _ _ hm, splitNl_no_nl _ hu]
    simp
  | cons e2 rest ih =>
    intro e hall
    obtain ⟨hm, hu⟩ := hall e (by simp)
    rw [List.map_cons, List.map_cons, intercalate_cons_cons, entryLine,
      List.append_assoc, List.cons_append, splitNl_append _ _ hm,
      splitNl_append _ _ hu, ← List.map_cons,
      ih e2 (fun x hx => hall x (by simp at hx ⊢; tauto))]
    simp

/-- The emitted playlist text splits into the header line followed by the
metadata and URL lines of the entries. -/
theorem splitNl_emit (header : List Char) (hH : '\n' ∉ header)
    (entries : List ParsedEntry)
    (hall : ∀ e ∈ entries, '\n' ∉ metaLine e ∧ '\n' ∉ e.streamUrl) :
    splitNl (emit_m3u header entries) =
      header :: entries.flatMap (fun e => [metaLine e, e.streamUrl]) := by
  cases entries with
  | nil =>
    rw [emit_m3u, List.map_nil, intercalate_single, splitNl_no_nl header hH]
    simp
  | cons e rest =>
    rw [emit_m3u, List.map_cons, intercalate_cons_cons,
      splitNl_append _ _ hH, ← List.map_cons, splitNl_lines rest e hall]

/-- The fixed opening of every rebuilt metadata line. -/
theorem metaLine_pre (e : ParsedEntry) :
    chars "#EXTINF:-1 tvg-id=\"" <+: metaLine e := by
  unfold metaLine
  exact (((((List.prefix_append _ _).trans (List.prefix_append _ _)).trans
    (List.prefix_append _ _)).trans (List.prefix_append _ _)).trans
    (List.prefix_append _ _)).trans (List.prefix_append _ _)

/-- A rebuilt metadata line passes the metadata-line test. -/
theorem extinf_pre_metaLine (e : ParsedEntry) :
    extinfMark.isPrefixOf (metaLine e) = true :=
  List.isPrefixOf_iff_prefix.mpr
    ((show extinfMark <+: chars "#EXTINF:-1 tvg-id=\"" by decide).trans (metaLine_pre e))

/-- A rebuilt metadata line starts with the comment marker. -/
theorem metaLine_head (e : ParsedEntry) : (metaLine e).head? = some '#' := by
  obtain ⟨t, ht⟩ := metaLine_pre e
  rw [← ht, head?_append_left _ _ (by decide)]
  decide

/-- A captured header starts with the comment marker. -/
theorem header_head (header : List Char)
    (h : extm3uMark.isPrefixOf header = true) : header.head? = some '#' := by
  obtain ⟨t, ht⟩ := List.isPrefixOf_iff_prefix.mp h
  rw [← ht, head?_append_left _ _ (by decide)]
  decide

/-- The emitted text starts with the header's comment marker. -/
theorem emit_head (header : List Char) (entries : List ParsedEntry)
    (hh : header.head? = some '#') :
    (emit_m3u header entries).head? = some '#' := by
  cases entries with
  | nil =>
    rw [emit_m3u, List.map_nil, intercalate_single]
    exact hh
  | cons e rest =>
    rw [emit_m3u, List.map_cons, intercalate_cons_cons,
      head?_append_left _ _ (fun hnil => by rw [hnil] at hh; simp at hh)]
    exact hh

/-- Joined entry lines are never empty. -/
theorem intercalate_lines_ne_nil (es : List ParsedEntry) (e : ParsedEntry) :
    List.intercalate ['\n'] ((e :: es).map entryLine) ≠ [] := by
  cases es with
  | nil =>
    rw [List.map_cons, List.map_nil, intercalate_single]
    simp [entryLine]
  | cons e2 rest =>
    rw [List.map_cons, List.map_cons, intercalate_cons_cons]
    simp [entryLine]

/-- The last character of joined entry lines is the last character of one of
the stream URLs. -/
theorem getLast?_lines :
    ∀ (es : List ParsedEntry) (e : ParsedEntry),
      (∀ x ∈ e :: es, x.streamUrl ≠ []) →
      ∃ x, x ∈ e :: es ∧
        (List.intercalate ['\n'] ((e :: es).map entryLine)).getLast? =
          x.streamUrl.getLast? := by
  intro es
  induction es with
  | nil =>
    intro e hall
    refine ⟨e, by simp, ?_⟩
    rw [List.map_cons, List.map_nil, intercalate_single, entryLine,
      List.getLast?_append_of_ne_nil _ (by simp),
      getLast?_cons_ne_nil _ _ (hall e (by simp))]
  | cons e2 rest ih =>
    intro e hall
    obtain ⟨x, hx, hlast⟩ := ih e2 (fun y hy => hall y (by simp at hy ⊢; tauto))
    refine ⟨x, by simp at hx ⊢; tauto, ?_⟩
    rw [List.map_cons, List.map_cons, intercalate_cons_cons, ← List.map_cons,
      List.getLast?_append_of_ne_nil _ (by simp),
      getLast?_cons_ne_nil _ _ (intercalate_lines_ne_nil rest e2), hlast]

/-- The emitted playlist text is strip-fixed. -/
theorem emit_strip_fix (header : List Char) (entries : List ParsedEntry)
    (hH1 : extm3uMark.isPrefixOf header = true)
    (hH3 : pyStrip header = header)
    (hurl : ∀ e ∈ entries, e.streamUrl ≠ [] ∧ pyStrip e.streamUrl = e.streamUrl) :
    pyStrip (emit_m3u header entries) = emit_m3u header entries := by
  apply pyStrip_eq_self_of_ends
  · intro c hc
    rw [emit_head header entries (header_head header hH1)] at hc
    have hce : c = '#' := by
      injection hc with hc
      exact hc.symm
    subst hce
    decide
  · intro c hc
    cases entries with
    | nil =>
      rw [emit_m3u, List.map_nil, intercalate_single] at hc
      exact last_not_space_of_pyStrip_fix header hH3 c hc
    | cons e rest =>
      obtain ⟨x, hx, hlast⟩ := getLast?_lines rest e (fun y hy => (hurl y hy).1)
      rw [emit_m3u, List.map_cons, intercalate_cons_cons, ← List.map_cons,
        List.getLast?_append_of_ne_nil _ (by simp),
        getLast?_cons_ne_nil _ _ (intercalate_lines_ne_nil rest e), hlast] at hc
      exact last_not_space_of_pyStrip_fix _ (hurl x hx).2 c hc

/-- A rebuilt metadata line contains no newline when its fields do not. -/
theorem no_nl_metaLine (e : ParsedEntry) (h1 : '\n' ∉ e.cleanId)
    (h2 : '\n' ∉ e.cleanLogo) (h3 : '\n' ∉ e.cleanGroup)
    (h4 : '\n' ∉ e.cleanName) : '\n' ∉ metaLine e := by
  have hc1 : '\n' ∉ chars "#EXTINF:-1 tvg-id=\"" := by decide
  have hc2 : '\n' ∉ chars " tvg-logo=\"" := by decide
  have hc3 : '\n' ∉ chars " group-title=\"" := by decide
  intro hmem
  by_cases hl : e.cleanLogo = [] <;> by_cases hg : e.cleanGroup = [] <;>
    (simp [metaLine, hl, hg, hc1, hc2, hc3, h1, h2, h3, h4] at hmem)

/-- Parsing the emitted body lines rebuilds exactly one entry per input
entry. -/
theorem parse_flatMap :
    ∀ es : List ParsedEntry,
      (∀ e ∈ es, e.streamUrl ≠ [] ∧ hashMark.isPrefixOf e.streamUrl = false ∧
        pyStrip e.streamUrl = e.streamUrl) →
      parse_entries (es.flatMap (fun e => [metaLine e, e.streamUrl])) =
        es.map (fun e => buildEntry (metaLine e) e.streamUrl) := by
  have hps : ∀ lines, parse_entries lines = parseSpec lines := fun lines => by
    have h := parseLoop_eq_spec lines (lines.length + 1) 0 (by omega)
    simpa [parse_entries] using h
  intro es
  induction es with
  | nil => intro _; rfl
  | cons e rest ih =>
    intro hall
    obtain ⟨hne, hhash, hstrip⟩ := hall e (by simp)
    rw [List.flatMap_cons,
      show ([metaLine e, e.streamUrl] : List (List Char)) ++
          rest.flatMap (fun x => [metaLine x, x.streamUrl]) =
        metaLine e :: e.streamUrl ::
          rest.flatMap (fun x => [metaLine x, x.streamUrl]) from rfl,
      hps]
    simp only [parseSpec, extinf_pre_metaLine e, hhash, if_true,
      Bool.false_eq_true, if_false]
    rw [hstrip, ← hps, ih (fun x hx => hall x (by simp [hx])), List.map_cons]

/-- The attribute search recovers a quote-free identity from a rebuilt
metadata line. -/
theorem searchCapture_meta (idv mid : List Char) (hq : '"' ∉ idv) :
    searchCapture attrId (chars "#EXTINF:-1 tvg-id=\"" ++ (idv ++ '"' :: mid)) =
      some idv := by
  have htw : (idv ++ '"' :: mid).takeWhile (fun d => !decide (d = '"')) = idv := by
    rw [takeWhile_append_all (fun d => !decide (d = '"')) idv ('"' :: mid)
      (fun c hc => by simp; exact fun h => hq (h ▸ hc))]
    simp
  have hdrop : (idv ++ '"' :: mid).drop idv.length = '"' :: mid :=
    List.drop_left idv ('"' :: mid)
  have hshape : chars "#EXTINF:-1 tvg-id=\"" ++ (idv ++ '"' :: mid) =
      '#' :: 'E' :: 'X' :: 'T' :: 'I' :: 'N' :: 'F' :: ':' :: '-' :: '1' :: ' ' ::
      ('t' :: 'v' :: 'g' :: '-' :: 'i' :: 'd' :: '=' :: '"' :: (idv ++ '"' :: mid)) := rfl
  rw [hshape]
  simp [searchCapture, List.isPrefixOf, attrId, chars]
  rw [htw, hdrop]
  rw [if_pos ⟨rfl, by omega⟩]

/-- The tail after the last comma of a comma-free display name. -/
theorem afterLastComma_append (A name : List Char) (h : ',' ∉ name) :
    afterLastComma (A ++ ',' :: name) = name := by
  unfold afterLastComma
  rw [List.reverse_append, List.reverse_cons, List.append_assoc,
    takeWhile_append_all (fun c => decide (c ≠ ',')) name.reverse ([','] ++ A.reverse)
      (fun c hc => by simp; exact fun h2 => h (h2 ▸ List.mem_reverse.mp hc))]
  simp

/-- Rebuilding an entry from its own emitted metadata line and URL recovers
the identity, display name and URL. -/
theorem buildEntry_meta (e : ParsedEntry)
    (hq : '"' ∉ e.cleanId) (hid : clean_tvg_id e.cleanId = e.cleanId)
    (hname : processName e.cleanName = e.cleanName) (hcomma : ',' ∉ e.cleanName)
    (hstrip : pyStrip e.cleanName = e.cleanName) :
    (buildEntry (metaLine e) e.streamUrl).cleanId = e.cleanId ∧
    (buildEntry (metaLine e) e.streamUrl).cleanName = e.cleanName ∧
    (buildEntry (metaLine e) e.streamUrl).streamUrl = e.streamUrl := by
  have hmetashape : metaLine e = chars "#EXTINF:-1 tvg-id=\"" ++ (e.cleanId ++ '"' ::
      ((if e.cleanLogo ≠ [] then chars " tvg-logo=\"" ++ e.cleanLogo ++ ['"'] else []) ++
       ((if e.cleanGroup ≠ [] then chars " group-title=\"" ++ e.cleanGroup ++ ['"'] else []) ++
        ',' :: e.cleanName))) := by
    simp [metaLine, List.append_assoc]
  have hsid : searchCapture attrId (metaLine e) = some e.cleanId := by
    rw [hmetashape]
    exact searchCapture_meta _ _ hq
  have hafter : afterLastComma (metaLine e) = e.cleanName := by
    have hsh : metaLine e = (chars "#EXTINF:-1 tvg-id=\"" ++ e.cleanId ++ ['"'] ++
        (if e.cleanLogo ≠ [] then chars " tvg-logo=\"" ++ e.cleanLogo ++ ['"'] else []) ++
        (if e.cleanGroup ≠ [] then chars " group-title=\"" ++ e.cleanGroup ++ ['"'] else [])) ++
        ',' :: e.cleanName := by
      simp [metaLine, List.append_assoc]
    rw [hsh]
    exact afterLastComma_append _ _ hcomma
  have hmem : ',' ∈ metaLine e := by
    simp [metaLine]
  simp only [buildEntry]
  refine ⟨?_, ?_, trivial⟩
  · rw [hsid]
    simpa using hid
  · rw [if_pos hmem, hafter, hstrip]
    exact hname

/-- Irreflexivity of the lexicographic comparison. -/
theorem lexLt_irrefl (l : List Char) : lexLt l l = false := by
  induction l with
  | nil => rfl
  | cons a as ih => simp [lexLt, ih]

/-- Irreflexivity of the strict key order. -/
theorem keyLT_irrefl (k : Nat × Nat × List Char) : keyLT k k = false := by
  simp [keyLT, lexLt_irrefl]

/-- A strict key comparison implies the non-strict one. -/
theorem keyLE_of_keyLT {a b : Nat × Nat × List Char} (h : keyLT a b = true) :
    keyLE a b = true := by
  simp only [keyLT, Bool.or_eq_true, Bool.and_eq_true, decide_eq_true_eq] at h
  simp only [keyLE, Bool.or_eq_true, Bool.and_eq_true, decide_eq_true_eq]
  tauto

/-- Inserting an element dominating the accumulator appends it at the end. -/
theorem insertSorted_append_end {α : Type} (le : α → α → Bool) (x : α)
    (acc : List α) (h : ∀ y ∈ acc, le y x = true) :
    insertSorted le x acc = acc ++ [x] := by
  induction acc with
  | nil => rfl
  | cons y ys ih =>
    simp only [insertSorted, if_pos (h y (by simp))]
    rw [ih (fun z hz => h z (by simp [hz]))]
    rfl

/-- Folding insertions of a sorted block over a dominated accumulator. -/
theorem pySort_fold_sorted {α : Type} (le : α → α → Bool) :
    ∀ (l acc : List α), (∀ y ∈ acc, ∀ x ∈ l, le y x = true) →
      l.Pairwise (fun a b => le a b = true) →
      l.foldl (fun a x => insertSorted le x a) acc = acc ++ l := by
  intro l
  induction l with
  | nil => intro acc _ _; simp
  | cons x xs ih =>
    intro acc hdom hpw
    rw [List.foldl_cons,
      insertSorted_append_end le x acc (fun y hy => hdom y hy x (by simp))]
    rw [ih (acc ++ [x]) ?dom ?pw]
    · simp
    case dom =>
      intro y hy z hz
      rcases List.mem_append.mp hy with hy | hy
      · exact hdom y hy z (by simp [hz])
      · have hyx : y = x := by simpa using hy
        subst hyx
        exact (List.pairwise_cons.mp hpw).1 z hz
    case pw => exact (List.pairwise_cons.mp hpw).2

/-- A sorted list is a fixed point of the modelled stable sort. -/
theorem pySort_of_pairwise {α : Type} (le : α → α → Bool) (l : List α)
    (h : l.Pairwise (fun a b => le a b = true)) : pySort le l = l := by
  have hfold := pySort_fold_sorted le l [] (by simp) h
  simpa [pySort] using hfold

/-- Inserting an entry with a fresh identity appends it. -/
theorem dictInsert_fresh (acc : List ParsedEntry) (e : ParsedEntry)
    (h : ∀ x ∈ acc, x.cleanId ≠ e.cleanId) : dictInsert acc e = acc ++ [e] := by
  induction acc with
  | nil => rfl
  | cons y ys ih =>
    simp only [dictInsert, if_neg (h y (by simp))]
    rw [ih (fun z hz => h z (by simp [hz]))]
    rfl

/-- Folding dict insertions of identity-distinct entries appends them all. -/
theorem foldl_dictInsert_fresh :
    ∀ (es acc : List ParsedEntry),
      (∀ x ∈ acc, ∀ y ∈ es, x.cleanId ≠ y.cleanId) →
      es.Pairwise (fun a b => a.cleanId ≠ b.cleanId) →
      es.foldl dictInsert acc = acc ++ es := by
  intro es
  induction es with
  | nil => intro acc _ _; simp
  | cons e tl ih =>
    intro acc hdom hpw
    rw [List.foldl_cons, dictInsert_fresh acc e (fun x hx => hdom x hx e (by simp))]
    rw [ih (acc ++ [e]) ?dom ?pw]
    · simp
    case dom =>
      intro x hx y hy
      rcases List.mem_append.mp hx with hx | hx
      · exact hdom x hx y (by simp [hy])
      · have hxe : x = e := by simpa using hx
        subst hxe
        exact (List.pairwise_cons.mp hpw).1 y hy
    case pw => exact (List.pairwise_cons.mp hpw).2

/-- C9 amended: parsing the emitted text reproduces the entries' identities,
display names and stream URLs in the same order, provided the entries are
normalized fixed points of the cleaning rules (identity and display name
unchanged by re-cleaning), emission-safe (identity quote-free, name
comma-free and strip-fixed, all fields newline-free, URLs non-empty,
strip-fixed and not starting with '#'), the header is a newline-free,
strip-fixed `#EXTM3U` directive, and the entries are strictly sorted by the
source's sort key (as pipeline output always is). -/
theorem C9_roundtrip_amended (header : List Char) (entries : List ParsedEntry)
    (hH1 : extm3uMark.isPrefixOf header = true)
    (hH2 : '\n' ∉ header) (hH3 : pyStrip header = header)
    (hid : ∀ e ∈ entries, clean_tvg_id e.cleanId = e.cleanId)
    (hq : ∀ e ∈ entries, '"' ∉ e.cleanId)
    (hnlid : ∀ e ∈ entries, '\n' ∉ e.cleanId)
    (hname : ∀ e ∈ entries, processName e.cleanName = e.cleanName)
    (hcomma : ∀ e ∈ entries, ',' ∉ e.cleanName)
    (hnstrip : ∀ e ∈ entries, pyStrip e.cleanName = e.cleanName)
    (hnlname : ∀ e ∈ entries, '\n' ∉ e.cleanName)
    (hnllogo : ∀ e ∈ entries, '\n' ∉ e.cleanLogo)
    (hnlgroup : ∀ e ∈ entries, '\n' ∉ e.cleanGroup)
    (hune : ∀ e ∈ entries, e.streamUrl ≠ [])
    (huhash : ∀ e ∈ entries, hashMark.isPrefixOf e.streamUrl = false)
    (hustrip : ∀ e ∈ entries, pyStrip e.streamUrl = e.streamUrl)
    (hnlurl : ∀ e ∈ entries, '\n' ∉ e.streamUrl)
    (hsorted : entries.Pairwise
      (fun a b => keyLT (sort_key a.cleanId) (sort_key b.cleanId) = true)) :
    (m3uSorted (emit_m3u header entries)).map
        (fun e => (e.cleanId, e.cleanName, e.streamUrl)) =
      entries.map (fun e => (e.cleanId, e.cleanName, e.streamUrl)) := by
  have hstripfix := emit_strip_fix header entries hH1 hH3
    (fun e he => ⟨hune e he, hustrip e he⟩)
  have hlines : m3uLines (emit_m3u header entries) =
      header :: entries.flatMap (fun e => [metaLine e, e.streamUrl]) := by
    rw [m3uLines, hstripfix]
    exact splitNl_emit header hH2 entries (fun e he =>
      ⟨no_nl_metaLine e (hnlid e he) (hnllogo e he) (hnlgroup e he) (hnlname e he),
       hnlurl e he⟩)
  have hbody : m3uBody (emit_m3u header entries) =
      entries.flatMap (fun e => [metaLine e, e.streamUrl]) := by
    unfold m3uBody
    rw [hlines]
    simp [hH1]
  have hentries : m3uEntries (emit_m3u header entries) =
      entries.map (fun e => buildEntry (metaLine e) e.streamUrl) := by
    unfold m3uEntries
    rw [hbody, parse_flatMap entries
      (fun e he => ⟨hune e he, huhash e he, hustrip e he⟩)]
  have hproj : ∀ e ∈ entries,
      (buildEntry (metaLine e) e.streamUrl).cleanId = e.cleanId ∧
      (buildEntry (metaLine e) e.streamUrl).cleanName = e.cleanName ∧
      (buildEntry (metaLine e) e.streamUrl).streamUrl = e.streamUrl :=
    fun e he => buildEntry_meta e (hq e he) (hid e he) (hname e he)
      (hcomma e he) (hnstrip e he)
  have hids : (entries.map (fun e => buildEntry (metaLine e) e.streamUrl)).Pairwise
      (fun a b => a.cleanId ≠ b.cleanId) := by
    rw [List.pairwise_map]
    apply List.Pairwise.imp_of_mem ?_ hsorted
    intro a b ha hb hlt
    rw [(hproj a ha).1, (hproj b hb).1]
    intro heq
    rw [heq, keyLT_irrefl] at hlt
    exact absurd hlt (by simp)
  have hpwle : (entries.map (fun e => buildEntry (metaLine e) e.streamUrl)).Pairwise
      (fun a b => entryLE a b = true) := by
    rw [List.pairwise_map]
    apply List.Pairwise.imp_of_mem ?_ hsorted
    intro a b ha hb hlt
    show entryLE _ _ = true
    unfold entryLE
    rw [(hproj a ha).1, (hproj b hb).1]
    exact keyLE_of_keyLT hlt
  have hunique : m3uUnique (emit_m3u header entries) =
      entries.map (fun e => buildEntry (metaLine e) e.streamUrl) := by
    unfold m3uUnique
    rw [hentries, foldl_dictInsert_fresh _ [] (by simp) hids]
    simp
  have hsorted2 : m3uSorted (emit_m3u header entries) =
      entries.map (fun e => buildEntry (metaLine e) e.streamUrl) := by
    unfold m3uSorted
    rw [hunique, pySort_of_pairwise entryLE _ hpwle]
  rw [hsorted2, List.map_map]
  apply List.map_congr_left
  intro e he
  have h := hproj e he
  simp [h.1, h.2.1, h.2.2]

/-- C9 counterexample: two already-normalized entries with distinct canonical
identities `b` then `a` (both in the residual category) are emitted in that
order, but re-processing the emitted text sorts them and returns `a` before
`b` — the identities, names and URLs are not reproduced "in the same order"
unless the entries were already sorted. -/
theorem C9_roundtrip_counterexample :
    clean_tvg_id (chars "b") = chars "b" ∧ processName (chars "b") = chars "b" ∧
    clean_tvg_id (chars "a") = chars "a" ∧ processName (chars "a") = chars "a" ∧
    (m3uSorted (emit_m3u (chars "#EXTM3U")
        [⟨chars "b", chars "b", [], [], chars "http://u1"⟩,
         ⟨chars "a", chars "a", [], [], chars "http://u2"⟩])).map
        (fun e => (e.cleanId, e.cleanName, e.streamUrl)) ≠
      [(chars "b", chars "b", chars "http://u1"),
       (chars "a", chars "a", chars "http://u2")] := by
  decide

/-- Witness for C9 amended on a concrete sorted, normalized two-entry
playlist. -/
theorem C9_roundtrip_amended_witness :
    extm3uMark.isPrefixOf (chars "#EXTM3U") = true ∧
    '\n' ∉ chars "#EXTM3U" ∧ pyStrip (chars "#EXTM3U") = chars "#EXTM3U" ∧
    (∀ e ∈ ([⟨chars "CCTV1", chars "CCTV1", chars "lg", chars "grp", chars "http://u1"⟩,
             ⟨chars "XTV", chars "Name", [], [], chars "http://u2"⟩] : List ParsedEntry),
      clean_tvg_id e.cleanId = e.cleanId ∧ '"' ∉ e.cleanId ∧ '\n' ∉ e.cleanId ∧
      processName e.cleanName = e.cleanName ∧ ',' ∉ e.cleanName ∧
      pyStrip e.cleanName = e.cleanName ∧ '\n' ∉ e.cleanName ∧
      '\n' ∉ e.cleanLogo ∧ '\n' ∉ e.cleanGroup ∧
      e.streamUrl ≠ [] ∧ hashMark.isPrefixOf e.streamUrl = false ∧
      pyStrip e.streamUrl = e.streamUrl ∧ '\n' ∉ e.streamUrl) ∧
    ([⟨chars "CCTV1", chars "CCTV1", chars "lg", chars "grp", chars "http://u1"⟩,
      ⟨chars "XTV", chars "Name", [], [], chars "http://u2"⟩] : List ParsedEntry).Pairwise
      (fun a b => keyLT (sort_key a.cleanId) (sort_key b.cleanId) = true) ∧
    (m3uSorted (emit_m3u (chars "#EXTM3U")
        [⟨chars "CCTV1", chars "CCTV1", chars "lg", chars "grp", chars "http://u1"⟩,
         ⟨chars "XTV", chars "Name", [], [], chars "http://u2"⟩])).map
        (fun e => (e.cleanId, e.cleanName, e.streamUrl)) =
      ([⟨chars "CCTV1", chars "CCTV1", chars "lg", chars "grp", chars "http://u1"⟩,
        ⟨chars "XTV", chars "Name", [], [], chars "http://u2"⟩] : List ParsedEntry).map
        (fun e => (e.cleanId, e.cleanName, e.streamUrl)) :=
  ⟨by decide, by decide, by decide, by decide, by decide,
   C9_roundtrip_amended (chars "#EXTM3U")
     [⟨chars "CCTV1", chars "CCTV1", chars "lg", chars "grp", chars "http://u1"⟩,
      ⟨chars "XTV", chars "Name", [], [], chars "http://u2"⟩]
     (by decide) (by decide) (by decide) (by decide) (by decide) (by decide)
     (by decide) (by decide) (by decide) (by decide) (by decide) (by decide)
     (by decide) (by decide) (by decide) (by decide) (by decide)⟩
